import Mathlib

/-!
Shallow embedding of the viewport-driven asset streaming subsystem of the
globe plugin, together with proofs settling the frozen claims about it.

Embedded components:
* `WMS` — `src/src/functions/WMSThrottler.ts`: the concurrency-capped,
  priority-ordered, coalescing, retrying network loader.  Its mutable
  class state is modelled as an explicit record `WMS.ThrState`, the
  asynchronous callback structure as a small-step event semantics
  (`WMS.stepThr` over `WMS.Ev`), and JavaScript numbers used for
  priorities and timestamps as `Int`.
* `Sched` — `src/src/functions/TreeLoadScheduler.ts`: the LOD scheduler.
  Distances (JS floats) are modelled as `ℚ` (the code only compares
  them), the Cesium scene's primitive collection as a list of scene
  models, and the `live` Map as an association list.
* `Inc` — the `ensureNear` routine of `loadTreesIncremental`
  (src/unnamed/part_001): the spherical streaming-volume radius logic,
  with real-number arithmetic for the square root.
-/

namespace WMS

/-- A queued request, mirroring the `WMSRequest` record of the source.
The `resolve`/`reject` callback pair held by a request is modelled by the
promise identifier `pid` of the caller that created it; `heapIndex` is
represented positionally by the index in the queue list. -/
structure WMSReq where
  url : String
  params : Option (List (String × String))
  pid : Nat
  priority : Int
  key : String
  waiters : List Nat
  computedUrl : String
  createdAt : Int
deriving DecidableEq, Inhabited

/-- Outcome recorded for a settled promise. -/
inductive Outcome where
  | success
  | failure
  | cancelled
deriving DecidableEq, Inhabited

/-- `compare` of WMSThrottler: priority first, recency as tie-break. -/
def cmp (a b : WMSReq) : Int :=
  if a.priority ≠ b.priority then a.priority - b.priority
  else b.createdAt - a.createdAt

/-- Positional element access with a default, standing for `queue[i]`. -/
def nth (q : List WMSReq) (i : Nat) : WMSReq :=
  q.getD i default

/-- `swap(i, j)` of the source heap (the `heapIndex` book-keeping is
positional in this model). -/
def swapL (q : List WMSReq) (i j : Nat) : List WMSReq :=
  (q.set i (nth q j)).set j (nth q i)

/-- Fueled body of the `bubbleUp(index)` loop; the loop runs at most
`index` times, so any fuel above the index is enough
(`bubbleUpGo_congr`). -/
def bubbleUpGo : Nat → List WMSReq → Nat → List WMSReq
  | 0, q, _ => q
  | _ + 1, q, 0 => q
  | fuel + 1, q, i + 1 =>
    if 0 ≤ cmp (nth q (i + 1)) (nth q (i / 2)) then q
    else bubbleUpGo fuel (swapL q (i + 1) (i / 2)) (i / 2)

/-- `bubbleUp(index)`: move the element at `index` towards the root
while it compares strictly below its parent. -/
def bubbleUp (q : List WMSReq) (i : Nat) : List WMSReq :=
  bubbleUpGo (i + 1) q i

/-- Index of the smallest among node `i` and its children, as computed by
the body of the `bubbleDown` loop. -/
def smallestIdx (q : List WMSReq) (i : Nat) : Nat :=
  let s1 := if 2 * i + 1 < q.length ∧ cmp (nth q (2 * i + 1)) (nth q i) < 0
    then 2 * i + 1 else i
  if 2 * i + 2 < q.length ∧ cmp (nth q (2 * i + 2)) (nth q s1) < 0
    then 2 * i + 2 else s1

/-- Fueled body of the `bubbleDown(index)` loop; the index strictly
increases and stays below the length, so `q.length` is enough fuel
(`bubbleDownGo_congr`). -/
def bubbleDownGo : Nat → List WMSReq → Nat → List WMSReq
  | 0, q, _ => q
  | fuel + 1, q, i =>
    if smallestIdx q i = i then q
    else bubbleDownGo fuel (swapL q i (smallestIdx q i)) (smallestIdx q i)

/-- `bubbleDown(index)`: move the element at `index` down while a child
compares strictly below it. -/
def bubbleDown (q : List WMSReq) (i : Nat) : List WMSReq :=
  bubbleDownGo q.length q i

/-- `reheapify(index)` of the source. -/
def reheapify (q : List WMSReq) (i : Nat) : List WMSReq :=
  bubbleDown (bubbleUp q i) i

/-- `pushRequest`: append at the end and bubble up. -/
def pushHeap (q : List WMSReq) (req : WMSReq) : List WMSReq :=
  bubbleUp (q ++ [req]) q.length

/-- `popRequest`: return the root, move the last element to the root and
bubble it down. -/
def popHeap (q : List WMSReq) : Option (WMSReq × List WMSReq) :=
  match q with
  | [] => none
  | top :: _ =>
    let last := nth q (q.length - 1)
    let q1 := q.dropLast
    let q2 := if 0 < q1.length then bubbleDown (q1.set 0 last) 0 else q1
    some (top, q2)

/-- Mutable state of a `WMSThrottler` instance.

`inflight` is the `Map<WMSKey, InflightEntry>` (association list in
insertion order, values are the promise ids of the entry's waiters, the
abort controller being modelled by the `aborted` log); `queue` is the
binary-heap array.  `started` logs the dedupe key of every physical
fetch that has been started, `settled` logs every promise that has been
resolved or rejected, and `aborted` logs every abort-signal activation
— these three logs are ghost observers of the class's side effects. -/
structure ThrState where
  queue : List WMSReq
  inflight : List (String × List Nat)
  activeCount : Int
  maxIdle : Nat
  maxMoving : Nat
  paused : Bool
  cameraMoving : Bool
  started : List String
  settled : List (Nat × Outcome)
  aborted : List String
deriving DecidableEq

/-- `currentLimit()` of the source. -/
def currentLimit (st : ThrState) : Int :=
  if st.cameraMoving then st.maxMoving else st.maxIdle

/-- Sort order used by `buildKey`: the JS comparator
`([a], [b]) => (a < b ? -1 : a > b ? 1 : 0)` compares the parameter
names. -/
def keyLE (a b : String × String) : Prop := a.1 ≤ b.1

instance : DecidableRel keyLE := fun a b =>
  inferInstanceAs (Decidable (a.1 ≤ b.1))

/-- Serialization of parameter pairs as done by
`URLSearchParams.toString` (percent-encoding is not modelled; it is
injective and order-preserving, hence irrelevant to the claims). -/
def paramString (ps : List (String × String)) : String :=
  String.intercalate "&" (ps.map (fun p => p.1 ++ "=" ++ p.2))

/-- `buildKey(url, params)`: stable order-independent dedupe key.  The
JS engine's stable comparator sort is modelled by `insertionSort`. -/
def buildKey (url : String) (params : Option (List (String × String))) :
    String :=
  match params with
  | none => url
  | some ps => url ++ "?" ++ paramString (List.insertionSort keyLE ps)

/-- `buildFullUrl(url, params)` of the source. -/
def buildFullUrl (url : String)
    (params : Option (List (String × String))) : String :=
  match params with
  | none => url
  | some ps =>
    url ++ (if url.contains '?' then "&" else "?") ++ paramString ps

/-- Lookup in the `inflight` map. -/
def lookupInflight (st : ThrState) (key : String) : Option (List Nat) :=
  (st.inflight.find? (fun e => e.1 == key)).map (fun e => e.2)

/-- `inflight.promises.push(...)`: attach one more waiter to an
in-flight entry. -/
def attachInflight (m : List (String × List Nat)) (key : String)
    (pid : Nat) : List (String × List Nat) :=
  m.map (fun e => if e.1 == key then (e.1, e.2 ++ [pid]) else e)

/-- Position of the queued request with the given key
(`queuedRequests.get(key)`, the map being kept in sync with the heap
array). -/
def findQueued (st : ThrState) (key : String) : Option Nat :=
  st.queue.findIdx? (fun r => r.key == key)

/-- One iteration bound of `processQueue`: the `while` loop pops at most
one element of the heap per iteration, so the queue length is enough
fuel. -/
def processGo : Nat → ThrState → ThrState
  | 0, st => st
  | fuel + 1, st =>
    if st.activeCount < currentLimit st then
      match popHeap st.queue with
      | none => st
      | some (req, q2) =>
        let st1 := { st with queue := q2 }
        if (lookupInflight st1 req.key).isSome then processGo fuel st1
        else
          processGo fuel
            { st1 with
              inflight := st1.inflight ++ [(req.key, req.pid :: req.waiters)],
              activeCount := st1.activeCount + 1,
              started := st1.started ++ [req.key] }
    else st

/-- `processQueue()` of the source: bail out when paused, otherwise
start queued fetches while below the concurrency limit. -/
def processQueue (st : ThrState) : ThrState :=
  if st.paused then st else processGo st.queue.length st

/-- `request(url, params, priority)`: coalesce onto an in-flight fetch,
bump an already-queued request, or push and process.  The fresh promise
of the caller is `pid`, `now` is `Date.now()`. -/
def requestStep (st : ThrState) (url : String)
    (params : Option (List (String × String))) (prio : Int) (pid : Nat)
    (now : Int) : ThrState :=
  let key := buildKey url params
  match lookupInflight st key with
  | some _ => { st with inflight := attachInflight st.inflight key pid }
  | none =>
    match findQueued st key with
    | some i =>
      let ex := nth st.queue i
      let newPrio := min ex.priority prio
      let q1 := st.queue.set i
        { ex with priority := newPrio, waiters := ex.waiters ++ [pid] }
      let q2 := if newPrio = ex.priority then q1 else reheapify q1 i
      { st with queue := q2 }
    | none =>
      let req : WMSReq :=
        { url := url, params := params, pid := pid, priority := prio,
          key := key, waiters := [],
          computedUrl := buildFullUrl url params, createdAt := now }
      processQueue { st with queue := pushHeap st.queue req }

/-- Settlement of the fetch promise for `key` (the `.then`/`.catch`
handlers followed by the `.finally` handler of `processQueue`). -/
def completeStep (st : ThrState) (key : String) (ok : Bool) : ThrState :=
  let st1 :=
    match lookupInflight st key with
    | some pids =>
      { st with
        settled := st.settled ++ pids.map
          (fun p => (p, if ok then Outcome.success else Outcome.failure)),
        inflight := st.inflight.eraseP (fun e => e.1 == key) }
    | none => st
  processQueue { st1 with activeCount := st1.activeCount - 1 }

/-- `cancelAll()` of the source: abort and reject everything in flight,
reject everything queued, clear all state. -/
def cancelAllStep (st : ThrState) : ThrState :=
  let infPids := st.inflight.flatMap (fun e => e.2)
  let qPids := st.queue.flatMap (fun r => r.pid :: r.waiters)
  { st with
    aborted := st.aborted ++ st.inflight.map (fun e => e.1),
    settled := st.settled ++
      (infPids ++ qPids).map (fun p => (p, Outcome.cancelled)),
    inflight := [],
    queue := [],
    activeCount := 0 }

/-- `setCameraMoving(moving)` of the source. -/
def setMovingStep (st : ThrState) (b : Bool) : ThrState :=
  processQueue { st with cameraMoving := b }

/-- `pause()` of the source (the resume timer is not modelled). -/
def pauseStep (st : ThrState) : ThrState :=
  if st.paused then st else { st with paused := true }

/-- `resume()` of the source. -/
def resumeStep (st : ThrState) : ThrState :=
  if st.paused then processQueue { st with paused := false } else st

/-- Externally observable events driving a throttler instance. -/
inductive Ev where
  | req (url : String) (params : Option (List (String × String)))
      (prio : Int) (pid : Nat) (now : Int)
  | complete (key : String) (ok : Bool)
  | setMoving (b : Bool)
  | pauseE
  | resumeE
  | cancelAllE

/-- Small-step semantics of the throttler. -/
def stepThr (st : ThrState) : Ev → ThrState
  | .req u p pr pid now => requestStep st u p pr pid now
  | .complete k ok => completeStep st k ok
  | .setMoving b => setMovingStep st b
  | .pauseE => pauseStep st
  | .resumeE => resumeStep st
  | .cancelAllE => cancelAllStep st

/-- Run a list of events. -/
def runThr (evs : List Ev) (st : ThrState) : ThrState :=
  evs.foldl stepThr st

/-- A freshly constructed `WMSThrottler` with the given caps
(the constructor defaults are `8` and `3`). -/
def initThr (idle moving : Nat) : ThrState :=
  { queue := [], inflight := [], activeCount := 0, maxIdle := idle,
    maxMoving := moving, paused := false, cameraMoving := false,
    started := [], settled := [], aborted := [] }

/-- Invariant for the amended concurrency bound: the active count never
exceeds the larger of the two configured caps. -/
def capBound (st : ThrState) : Prop :=
  st.activeCount ≤ ((max st.maxIdle st.maxMoving : Nat) : Int)

instance : IsTotal (String × String) keyLE :=
  ⟨fun a b => le_total a.1 b.1⟩

instance : IsTrans (String × String) keyLE :=
  ⟨fun _ _ _ hab hbc => le_trans hab hbc⟩

/-- `maxRetries` constant of `fetchWMS`. -/
def maxRetries : Nat := 2

/-- `backoffBase` constant of `fetchWMS` (milliseconds). -/
def backoffBase : ℚ := 150

/-- The retry loop of `fetchWMS(req, signal)`, with its effects made
explicit: `succ k` tells whether the k-th try (fetch + decode) succeeds,
`ab k` whether the abort signal is observed in the catch handler of the
k-th try, and `rand k` the `Math.random()` draw used for the k-th retry
delay.  Returns whether the promise resolves, together with the list of
backoff delays awaited.  The loop makes at most `maxRetries + 1` tries,
so that much fuel is exact. -/
def fetchTries : Nat → (Nat → Bool) → (Nat → Bool) → (Nat → ℚ) → Nat →
    Bool × List ℚ
  | 0, _, _, _, _ => (false, [])
  | fuel + 1, succ, ab, rand, attempt =>
    if succ attempt then (true, [])
    else if ab attempt then (false, [])
    else if maxRetries ≤ attempt then (false, [])
    else
      let jitter := rand (attempt + 1) * (1 / 2) + 3 / 4
      let d := backoffBase * ((attempt + 1 : Nat) : ℚ) * jitter
      let r := fetchTries fuel succ ab rand (attempt + 1)
      (r.1, d :: r.2)

/-- `fetchWMS` of the source: the retry loop started at attempt 0. -/
def fetchWMS (succ ab : Nat → Bool) (rand : Nat → ℚ) : Bool × List ℚ :=
  fetchTries (maxRetries + 1) succ ab rand 0

/-- Binary-heap invariant of the queue array under `cmp`: every node
compares no greater than its children (parent of node `i` is
`(i - 1) / 2`). -/
def heapOrdered (q : List WMSReq) : Prop :=
  ∀ i, 0 < i → i < q.length → cmp (nth q ((i - 1) / 2)) (nth q i) ≤ 0

/-- Heap invariant with one possible violation: the edge into node `j`
from its parent may fail, but `j`'s grandparent still dominates `j`'s
children.  This is the state of the array right after a decrease-key at
`j`, and is the invariant maintained while `bubbleUp` ascends. -/
def heapExceptUp (q : List WMSReq) (j : Nat) : Prop :=
  (∀ c, 0 < c → c < q.length → c ≠ j →
    cmp (nth q ((c - 1) / 2)) (nth q c) ≤ 0)
  ∧ (0 < j → ∀ c, c < q.length → (c - 1) / 2 = j →
    cmp (nth q ((j - 1) / 2)) (nth q c) ≤ 0)

end WMS

namespace Sched

/-- The three LOD tiers of the scheduler. -/
inductive LOD where
  | high
  | medium
  | low
deriving DecidableEq, Inhabited

/-- `TreeMeta` of the source (the `matrixCache` field caches Cesium
matrices and is irrelevant to the claims; JS float attributes are
modelled as `ℚ`). -/
structure TreeM where
  fid : String
  lon : ℚ
  lat : ℚ
  height : ℚ
  scale : ℚ
  rot : ℚ
  urlHigh : Option String
  urlMedium : Option String
  urlLow : Option String
deriving DecidableEq, Inhabited

/-- `QueueItem` of the source.  The resolved `url` is an `Option`
because `t.urlLow!` merely casts away `undefined` in TypeScript — at
runtime a missing low URL flows through unchanged. -/
structure QItem where
  meta : TreeM
  url : Option String
  lod : LOD
  version : Nat
deriving DecidableEq, Inhabited

/-- `LiveTree` of the source; the Cesium `Model` object is identified by
a numeric id. -/
structure LiveTree where
  modelId : Nat
  url : Option String
  lod : LOD
deriving DecidableEq, Inhabited

/-- A renderable model resident in `scene.primitives`, tagged with the
tree it was built for. -/
structure SceneModel where
  fid : String
  modelId : Nat
deriving DecidableEq, Inhabited

/-- Association-list lookup mirroring `Map.get`. -/
def mget (l : List (String × LiveTree)) (k : String) : Option LiveTree :=
  (l.find? (fun p => p.1 == k)).map (fun p => p.2)

/-- Association-list update mirroring `Map.set` (replace in place, or
append a new binding). -/
def mset : List (String × LiveTree) → String → LiveTree →
    List (String × LiveTree)
  | [], k, v => [(k, v)]
  | p :: t, k, v => if p.1 = k then (k, v) :: t else p :: mset t k v

/-- Association-list removal mirroring `Map.delete`. -/
def mdel (l : List (String × LiveTree)) (k : String) :
    List (String × LiveTree) :=
  l.eraseP (fun p => p.1 == k)

/-- State of a `TreeLoadScheduler` instance (the RBush index, camera and
HUD are external; `loading` is not needed by the claims settled here). -/
structure SchedState where
  live : List (String × LiveTree)
  primitives : List SceneModel
  queue : List QItem
  lodVersion : Nat
  visible : Bool
  moving : Bool
deriving DecidableEq

/-- `HIGH_DISTANCE` tunable. -/
def HIGH_DISTANCE : ℚ := 70

/-- `MEDIUM_DISTANCE` tunable. -/
def MEDIUM_DISTANCE : ℚ := 200

/-- `RADIUS_M` tunable of the scheduler. -/
def RADIUS_M : ℚ := 700

/-- `resolveLOD(t, d)` of the source: distance thresholds pick the tier,
`??` falls back from a missing high/medium URL directly to the low URL. -/
def resolveLOD (t : TreeM) (d : ℚ) : Option String × LOD :=
  if d < HIGH_DISTANCE then (t.urlHigh.orElse (fun _ => t.urlLow), LOD.high)
  else if d < MEDIUM_DISTANCE then
    (t.urlMedium.orElse (fun _ => t.urlLow), LOD.medium)
  else (t.urlLow, LOD.low)

/-- Loop body of `enqueueMissing`: the queue item pushed for one hit,
or nothing when the live entry already matches the resolved URL and
tier. -/
def enqueueItem (live : List (String × LiveTree)) (version : Nat)
    (h : TreeM × ℚ) : Option QItem :=
  let r := resolveLOD h.1 h.2
  match mget live h.1.fid with
  | some e =>
    if e.url = r.1 ∧ e.lod = r.2 then none
    else some ⟨h.1, r.1, r.2, version⟩
  | none => some ⟨h.1, r.1, r.2, version⟩

/-- `enqueueMissing(hits)` of the source: clear the queue, bump
`lodVersion`, and push one item per hit whose live entry does not
already match the resolved URL and tier. -/
def enqueueMissing (st : SchedState) (hits : List (TreeM × ℚ)) :
    SchedState :=
  let version := st.lodVersion + 1
  { st with
    queue := hits.filterMap (enqueueItem st.live version),
    lodVersion := version }

/-- `removeOutOfRange(keep)` of the source: evict every live entry whose
fid is not in the keep set, removing its model from the scene. -/
def removeOutOfRange (st : SchedState) (keep : List String) : SchedState :=
  st.live.foldl
    (fun s p =>
      if keep.contains p.1 then s
      else
        { s with
          primitives := s.primitives.erase ⟨p.1, p.2.modelId⟩,
          live := mdel s.live p.1 })
    st

/-- The diff step of `updateLOD` for a settled camera, applied to the
candidate hits of the spatial query: compute the keep set, remove
out-of-range entries, and enqueue the missing items (the early return
for `!visible`, and the `moving` gate that defers enqueueing, are kept). -/
def diffStep (st : SchedState) (hits : List (TreeM × ℚ)) : SchedState :=
  if st.visible = false then st
  else
    let keep := hits.map (fun h => h.1.fid)
    let st1 := removeOutOfRange st keep
    if st.moving then st1 else enqueueMissing st1 hits

/-- Completion of `loadTree(item)` once `Model.fromGltfAsync` resolves
to the fresh model `m`: drop outdated or invisible loads, replace any
previous model for the fid, and install the new one. -/
def completeLoad (st : SchedState) (item : QItem) (m : Nat) : SchedState :=
  if st.visible = false ∨ item.version ≠ st.lodVersion then st
  else
    match mget st.live item.meta.fid with
    | some e =>
      let st1 :=
        { st with primitives := st.primitives.erase ⟨item.meta.fid, e.modelId⟩ }
      if e.lod = item.lod ∧ e.url = item.url then st1
      else
        { st1 with
          primitives := st1.primitives ++ [⟨item.meta.fid, m⟩],
          live := mset st1.live item.meta.fid ⟨m, item.url, item.lod⟩ }
    | none =>
      { st with
        primitives := st.primitives ++ [⟨item.meta.fid, m⟩],
        live := mset st.live item.meta.fid ⟨m, item.url, item.lod⟩ }

/-- Drain loop over a list of queued items, completing each with a
fresh model id (`base`, `base+1`, …). -/
def applyGo : List QItem → Nat → SchedState → SchedState
  | [], _, s => s
  | it :: rest, b, s => applyGo rest (b + 1) (completeLoad s it b)

/-- Drain the whole queue, completing every queued item with a fresh
model id. -/
def applyAll (st : SchedState) (base : Nat) : SchedState :=
  applyGo st.queue base { st with queue := [] }

/-- Scene coherence invariant: every model resident in the scene is the
model of the live entry recorded for its tree, and no model is resident
twice. -/
def InvC1 (st : SchedState) : Prop :=
  (∀ p ∈ st.primitives,
    ∃ e, mget st.live p.fid = some e ∧ p.modelId = e.modelId)
  ∧ st.primitives.Nodup

/-- At most one scene model exists per fid. -/
def atMostOne (st : SchedState) : Prop :=
  ∀ f, (st.primitives.filter (fun p => p.fid == f)).length ≤ 1

end Sched

namespace Inc

/-- `RADIUS_M` tunable of `loadTreesIncremental` (src/unnamed/part_001). -/
noncomputable def RADIUS_M : ℝ := 700

/-- Horizontal budget of the 3D streaming sphere computed by
`ensureNear` step 3: `Math.sqrt(RADIUS_M * RADIUS_M - camAGL * camAGL)`. -/
noncomputable def horizMax (camAGL : ℝ) : ℝ :=
  Real.sqrt (RADIUS_M * RADIUS_M - camAGL * camAGL)

/-- Steps 3–4 of `ensureNear`: compute the camera height above ground
(`Math.max(0, cam.height - terrainH)`); if it reaches the streaming
radius hide everything and bail, otherwise stream exactly the
candidates whose ground distance is within the horizontal budget.
Candidates are given as (fid, geodesic distance) pairs, the geodesic
distance computation being trigonometic float code outside the claims. -/
noncomputable def ensureNearTarget (camHeight terrainH : ℝ)
    (cands : List (String × ℝ)) : List String :=
  let camAGL := max 0 (camHeight - terrainH)
  if RADIUS_M ≤ camAGL then []
  else (cands.filter (fun c => c.2 ≤ horizMax camAGL)).map (fun c => c.1)

end Inc

/-- C5: for the fixed streaming radius `R = 700` m, a camera below `R`
above ground streams exactly the candidates within horizontal distance
`sqrt(R² − camAGL²)` (`700` at ground level, `0` at `camAGL = 700`),
and a camera at or above `R` streams nothing. -/
theorem C5_theorem (camH terrH : ℝ) (cands : List (String × ℝ)) :
    (700 ≤ max 0 (camH - terrH) → Inc.ensureNearTarget camH terrH cands = [])
    ∧ (max 0 (camH - terrH) < 700 →
        Inc.ensureNearTarget camH terrH cands =
          (cands.filter (fun c =>
            c.2 ≤ Real.sqrt (700 ^ 2 - (max 0 (camH - terrH)) ^ 2))).map
            (fun c => c.1))
    ∧ Inc.horizMax 0 = 700 ∧ Inc.horizMax 700 = 0 := by
  have hsq : ∀ a : ℝ, Inc.RADIUS_M * Inc.RADIUS_M - a * a = 700 ^ 2 - a ^ 2 := by
    intro a; unfold Inc.RADIUS_M; ring
  refine ⟨?_, ?_, ?_, ?_⟩
  · intro h
    unfold Inc.ensureNearTarget
    rw [if_pos (by simpa [Inc.RADIUS_M] using h)]
  · intro h
    unfold Inc.ensureNearTarget
    rw [if_neg (by simp only [Inc.RADIUS_M]; exact not_le.mpr h)]
    simp only [Inc.horizMax, hsq]
  · unfold Inc.horizMax
    rw [hsq]
    norm_num
    rw [show (490000 : ℝ) = 700 ^ 2 by norm_num]
    exact Real.sqrt_sq (by norm_num)
  · unfold Inc.horizMax
    rw [hsq]
    norm_num

/-- Witness for C5 at a concrete input: at `camAGL = 700` (camera height
700, terrain height 0) nothing is streamed. -/
theorem C5_witness :
    (700 : ℝ) ≤ max 0 ((700 : ℝ) - 0)
    ∧ Inc.ensureNearTarget 700 0 [("a", 1)] = [] := by
  refine ⟨by norm_num, (C5_theorem 700 0 [("a", 1)]).1 (by norm_num)⟩

/-- C6 counterexample: at distance 50 m the resolved tier is `high`; for
a placement whose high URL is missing but whose medium URL is available,
the code falls back directly to the low URL (`t.urlHigh ?? t.urlLow!`),
not to the next coarser available (medium) URL claimed by the spec. -/
theorem C6_counterexample :
    (Sched.resolveLOD
        ⟨"a", 0, 0, 0, 1, 0, none, some "m", some "l"⟩ 50).1 = some "l"
    ∧ (Sched.resolveLOD
        ⟨"a", 0, 0, 0, 1, 0, none, some "m", some "l"⟩ 50).1 ≠ some "m" := by
  decide

/-- C6 (amended): tiers are `high` for `d < 70`, `medium` for
`70 ≤ d < 200`, `low` otherwise (so 50/150/500 m resolve to
high/medium/low), and a missing high or medium URL falls back to the
low-tier URL (not to the next coarser available URL). -/
theorem C6_theorem (t : Sched.TreeM) (d : ℚ) :
    ((Sched.resolveLOD t d).2 = Sched.LOD.high ↔ d < 70)
    ∧ ((Sched.resolveLOD t d).2 = Sched.LOD.medium ↔ 70 ≤ d ∧ d < 200)
    ∧ ((Sched.resolveLOD t d).2 = Sched.LOD.low ↔ 200 ≤ d)
    ∧ (Sched.resolveLOD t 50).2 = Sched.LOD.high
    ∧ (Sched.resolveLOD t 150).2 = Sched.LOD.medium
    ∧ (Sched.resolveLOD t 500).2 = Sched.LOD.low
    ∧ (d < 70 → t.urlHigh = none → (Sched.resolveLOD t d).1 = t.urlLow)
    ∧ (70 ≤ d → d < 200 → t.urlMedium = none →
        (Sched.resolveLOD t d).1 = t.urlLow)
    ∧ (200 ≤ d → (Sched.resolveLOD t d).1 = t.urlLow) := by
  have hres : ∀ e : ℚ, Sched.resolveLOD t e =
      if e < 70 then (t.urlHigh.orElse fun _ => t.urlLow, Sched.LOD.high)
      else if e < 200 then
        (t.urlMedium.orElse fun _ => t.urlLow, Sched.LOD.medium)
      else (t.urlLow, Sched.LOD.low) := fun e => rfl
  refine ⟨?_, ?_, ?_, ?_, ?_, ?_, ?_, ?_, ?_⟩
  · rw [hres]; split_ifs with h1 h2 <;> simp_all
  · rw [hres]; split_ifs with h1 h2 <;> simp_all
  · rw [hres]; split_ifs with h1 h2 <;> simp_all; linarith
  · norm_num [hres]
  · norm_num [hres]
  · norm_num [hres]
  · intro h hnone; rw [hres, if_pos h, hnone]; rfl
  · intro h1 h2 hnone
    rw [hres, if_neg (by linarith), if_pos h2, hnone]; rfl
  · intro h; rw [hres, if_neg (by linarith), if_neg (by linarith)]

/-- Witness for C6 at a concrete input: at 50 m with a missing high URL
the low URL is returned. -/
theorem C6_witness :
    (50 : ℚ) < 70
    ∧ (Sched.resolveLOD
        ⟨"a", 0, 0, 0, 1, 0, none, some "m", some "l"⟩ 50).1 =
      (Sched.TreeM.mk "a" 0 0 0 1 0 none (some "m") (some "l")).urlLow := by
  exact ⟨by norm_num,
    ( C6_theorem ⟨"a", 0, 0, 0, 1, 0, none, some "m", some "l"⟩
        50).2.2.2.2.2.2.1 (by norm_num) rfl⟩

/-- C1 counterexample: a completed item whose version matches the
scheduler's current `lodVersion` is nevertheless discarded (neither
installed in the scene nor recorded in the live map) when visibility has
been turned off, refuting the claimed "if and only if". -/
theorem C1_counterexample :
    ¬ ((Sched.mget
          (Sched.completeLoad
            ⟨[], [], [], 0, false, false⟩
            ⟨⟨"a", 0, 0, 0, 1, 0, none, none, some "l"⟩, some "l",
              Sched.LOD.low, 0⟩ 5).live "a" =
        some ⟨5, some "l", Sched.LOD.low⟩
      ∧ (Sched.SceneModel.mk "a" 5) ∈
          (Sched.completeLoad
            ⟨[], [], [], 0, false, false⟩
            ⟨⟨"a", 0, 0, 0, 1, 0, none, none, some "l"⟩, some "l",
              Sched.LOD.low, 0⟩ 5).primitives
      ↔ (0 : Nat) = 0)) := by
  decide

/-- C7 counterexample: running the diff step twice in a row on the same
hits, with nothing loaded in between, re-enqueues the same missing item
the second time instead of producing an empty queue — the diff is taken
against the `live` map, which only reflects completed loads. -/
theorem C7_counterexample :
    (Sched.diffStep
        (Sched.diffStep ⟨[], [], [], 0, true, false⟩
          [(⟨"a", 0, 0, 0, 1, 0, none, none, some "l"⟩, 500)])
        [(⟨"a", 0, 0, 0, 1, 0, none, none, some "l"⟩, 500)]).queue ≠ [] := by
  decide

/-- C2 counterexample: fill the throttler with 8 fetches while the
camera is idle (limit 8), then report the camera moving; `currentLimit`
drops to 3 while 8 fetches remain in flight, refuting "`activeCount`
never exceeds `currentLimit()` at every moment". -/
theorem C2_counterexample :
    WMS.currentLimit
        (WMS.runThr
          [.req "k1" none 100 0 0, .req "k2" none 100 1 0,
           .req "k3" none 100 2 0, .req "k4" none 100 3 0,
           .req "k5" none 100 4 0, .req "k6" none 100 5 0,
           .req "k7" none 100 6 0, .req "k8" none 100 7 0,
           .setMoving true]
          (WMS.initThr 8 3)) <
      (WMS.runThr
          [.req "k1" none 100 0 0, .req "k2" none 100 1 0,
           .req "k3" none 100 2 0, .req "k4" none 100 3 0,
           .req "k5" none 100 4 0, .req "k6" none 100 5 0,
           .req "k7" none 100 6 0, .req "k8" none 100 7 0,
           .setMoving true]
          (WMS.initThr 8 3)).activeCount := by
  decide

namespace WMS

theorem smallestIdx_spec (q : List WMSReq) (i : Nat) :
    smallestIdx q i = i ∨
      (i < smallestIdx q i ∧ smallestIdx q i < q.length) := by
  unfold smallestIdx
  simp only
  split <;> split <;> omega

theorem length_swapL (q : List WMSReq) (i j : Nat) :
    (swapL q i j).length = q.length := by
  simp [swapL]

theorem smallestIdx_of_ge (q : List WMSReq) (i : Nat)
    (h : q.length ≤ i) : smallestIdx q i = i := by
  unfold smallestIdx
  simp only
  rw [if_neg (by omega), if_neg (by omega)]

theorem bubbleUpGo_congr :
    ∀ (f f' : Nat) (q : List WMSReq) (i : Nat), i < f → i < f' →
      bubbleUpGo f q i = bubbleUpGo f' q i
  | 0, _, _, _, hf, _ => by omega
  | _ + 1, 0, _, _, _, hf' => by omega
  | _ + 1, _ + 1, _, 0, _, _ => rfl
  | f + 1, f' + 1, q, i + 1, hf, hf' => by
    show bubbleUpGo (f + 1) q (i + 1) = bubbleUpGo (f' + 1) q (i + 1)
    unfold bubbleUpGo
    split
    · rfl
    · exact bubbleUpGo_congr f f' _ (i / 2) (by omega) (by omega)

theorem bubbleUpGo_succ (f : Nat) (q : List WMSReq) (i : Nat) :
    bubbleUpGo (f + 1) q (i + 1) =
      if 0 ≤ cmp (nth q (i + 1)) (nth q (i / 2)) then q
      else bubbleUpGo f (swapL q (i + 1) (i / 2)) (i / 2) := rfl

theorem bubbleUp_succ (q : List WMSReq) (i : Nat) :
    bubbleUp q (i + 1) =
      if 0 ≤ cmp (nth q (i + 1)) (nth q (i / 2)) then q
      else bubbleUp (swapL q (i + 1) (i / 2)) (i / 2) := by
  show bubbleUpGo (i + 2) q (i + 1) = _
  rw [bubbleUpGo_succ]
  by_cases h : 0 ≤ cmp (nth q (i + 1)) (nth q (i / 2))
  · rw [if_pos h, if_pos h]
  · rw [if_neg h, if_neg h]
    exact bubbleUpGo_congr (i + 1) (i / 2 + 1) _ (i / 2) (by omega) (by omega)

theorem bubbleDownGo_succ (f : Nat) (q : List WMSReq) (i : Nat) :
    bubbleDownGo (f + 1) q i =
      if smallestIdx q i = i then q
      else bubbleDownGo f (swapL q i (smallestIdx q i)) (smallestIdx q i) :=
  rfl

theorem bubbleDownGo_congr :
    ∀ (f f' : Nat) (q : List WMSReq) (i : Nat),
      q.length - i ≤ f → q.length - i ≤ f' →
      bubbleDownGo f q i = bubbleDownGo f' q i
  | 0, 0, _, _, _, _ => rfl
  | 0, f' + 1, q, i, hf, _ => by
    have hge : q.length ≤ i := by omega
    rw [bubbleDownGo_succ, if_pos (smallestIdx_of_ge q i hge)]
    rfl
  | f + 1, 0, q, i, _, hf' => by
    have hge : q.length ≤ i := by omega
    rw [bubbleDownGo_succ, if_pos (smallestIdx_of_ge q i hge)]
    rfl
  | f + 1, f' + 1, q, i, hf, hf' => by
    rw [bubbleDownGo_succ, bubbleDownGo_succ]
    by_cases hsm : smallestIdx q i = i
    · rw [if_pos hsm, if_pos hsm]
    · rw [if_neg hsm, if_neg hsm]
      rcases smallestIdx_spec q i with h | h
      · exact absurd h hsm
      · exact bubbleDownGo_congr f f' _ (smallestIdx q i)
          (by rw [length_swapL]; omega) (by rw [length_swapL]; omega)

theorem bubbleDown_eq (q : List WMSReq) (i : Nat) :
    bubbleDown q i =
      if smallestIdx q i = i then q
      else bubbleDown (swapL q i (smallestIdx q i)) (smallestIdx q i) := by
  by_cases hsm : smallestIdx q i = i
  · rw [if_pos hsm]
    show bubbleDownGo q.length q i = q
    cases hlen : q.length with
    | zero => rfl
    | succ f => rw [bubbleDownGo_succ, if_pos hsm]
  · rw [if_neg hsm]
    rcases smallestIdx_spec q i with h | h
    · exact absurd h hsm
    · obtain ⟨f, hf⟩ : ∃ f, q.length = f + 1 := ⟨q.length - 1, by omega⟩
      show bubbleDownGo q.length q i =
        bubbleDownGo (swapL q i (smallestIdx q i)).length
          (swapL q i (smallestIdx q i)) (smallestIdx q i)
      rw [hf, bubbleDownGo_succ, if_neg hsm]
      exact bubbleDownGo_congr f (swapL q i (smallestIdx q i)).length _
        (smallestIdx q i)
        (by rw [length_swapL]; omega) (by rw [length_swapL]; omega)

theorem currentLimit_le (st : ThrState) :
    currentLimit st ≤ ((max st.maxIdle st.maxMoving : Nat) : Int) := by
  unfold currentLimit
  split
  · exact_mod_cast Nat.le_max_right _ _
  · exact_mod_cast Nat.le_max_left _ _

theorem processGo_cap : ∀ (f : Nat) (st : ThrState),
    capBound st → capBound (processGo f st)
  | 0, st, h => h
  | f + 1, st, h => by
    unfold processGo
    split
    · rename_i hlt
      cases hpop : popHeap st.queue with
      | none => exact h
      | some r =>
        simp only
        split
        · exact processGo_cap f _ h
        · refine processGo_cap f _ ?_
          have hle := currentLimit_le st
          unfold capBound at h ⊢
          simp only
          omega
    · exact h

theorem processQueue_cap (st : ThrState) (h : capBound st) :
    capBound (processQueue st) := by
  unfold processQueue
  split
  · exact h
  · exact processGo_cap _ _ h

theorem requestStep_cap (st : ThrState) (u : String)
    (p : Option (List (String × String))) (pr : Int) (pid : Nat)
    (now : Int) (h : capBound st) :
    capBound (requestStep st u p pr pid now) := by
  simp only [requestStep]
  cases hinf : lookupInflight st (buildKey u p) with
  | some l => simp only; exact h
  | none =>
    simp only
    cases hq : findQueued st (buildKey u p) with
    | some i => simp only; exact h
    | none => simp only; exact processQueue_cap _ h

theorem completeStep_cap (st : ThrState) (k : String) (ok : Bool)
    (h : capBound st) : capBound (completeStep st k ok) := by
  simp only [completeStep]
  cases hinf : lookupInflight st k with
  | some pids =>
    simp only
    refine processQueue_cap _ ?_
    unfold capBound at h ⊢
    simp only
    omega
  | none =>
    simp only
    refine processQueue_cap _ ?_
    unfold capBound at h ⊢
    simp only
    omega

theorem stepThr_cap (st : ThrState) (e : Ev) (h : capBound st) :
    capBound (stepThr st e) := by
  cases e with
  | req u p pr pid now => exact requestStep_cap st u p pr pid now h
  | complete k ok => exact completeStep_cap st k ok h
  | setMoving b => exact processQueue_cap _ h
  | pauseE =>
    show capBound (pauseStep st)
    unfold pauseStep
    split
    · exact h
    · exact h
  | resumeE =>
    show capBound (resumeStep st)
    unfold resumeStep
    split
    · exact processQueue_cap _ h
    · exact h
  | cancelAllE =>
    show capBound (cancelAllStep st)
    unfold capBound cancelAllStep
    simp only
    positivity

theorem runThr_cap : ∀ (evs : List Ev) (st : ThrState),
    capBound st → capBound (runThr evs st)
  | [], _, h => h
  | e :: evs, st, h => runThr_cap evs (stepThr st e) (stepThr_cap st e h)

theorem processGo_maxes : ∀ (f : Nat) (st : ThrState),
    (processGo f st).maxIdle = st.maxIdle
    ∧ (processGo f st).maxMoving = st.maxMoving
  | 0, st => ⟨rfl, rfl⟩
  | f + 1, st => by
    unfold processGo
    split
    · cases hpop : popHeap st.queue with
      | none => exact ⟨rfl, rfl⟩
      | some r =>
        simp only
        split
        · exact processGo_maxes f _
        · exact processGo_maxes f _
    · exact ⟨rfl, rfl⟩

theorem processGo_settled : ∀ (f : Nat) (st : ThrState),
    (processGo f st).settled = st.settled
  | 0, _ => rfl
  | f + 1, st => by
    unfold processGo
    split
    · cases hpop : popHeap st.queue with
      | none => rfl
      | some r =>
        simp only
        split
        · exact processGo_settled f _
        · exact processGo_settled f _
    · rfl

theorem processQueue_settled (st : ThrState) :
    (processQueue st).settled = st.settled := by
  unfold processQueue
  split
  · rfl
  · exact processGo_settled _ _

theorem processQueue_maxes (st : ThrState) :
    (processQueue st).maxIdle = st.maxIdle
    ∧ (processQueue st).maxMoving = st.maxMoving := by
  unfold processQueue
  split
  · exact ⟨rfl, rfl⟩
  · exact processGo_maxes _ _

theorem requestStep_maxes (st : ThrState) (u : String)
    (p : Option (List (String × String))) (pr : Int) (pid : Nat)
    (now : Int) :
    (requestStep st u p pr pid now).maxIdle = st.maxIdle
    ∧ (requestStep st u p pr pid now).maxMoving = st.maxMoving := by
  simp only [requestStep]
  cases hinf : lookupInflight st (buildKey u p) with
  | some l => exact ⟨rfl, rfl⟩
  | none =>
    simp only
    cases hq : findQueued st (buildKey u p) with
    | some i => exact ⟨rfl, rfl⟩
    | none => simp only; exact processQueue_maxes _

theorem completeStep_maxes (st : ThrState) (k : String) (ok : Bool) :
    (completeStep st k ok).maxIdle = st.maxIdle
    ∧ (completeStep st k ok).maxMoving = st.maxMoving := by
  simp only [completeStep]
  cases hinf : lookupInflight st k with
  | some pids => simp only; exact processQueue_maxes _
  | none => simp only; exact processQueue_maxes _

theorem stepThr_maxes (st : ThrState) (e : Ev) :
    (stepThr st e).maxIdle = st.maxIdle
    ∧ (stepThr st e).maxMoving = st.maxMoving := by
  cases e with
  | req u p pr pid now => exact requestStep_maxes st u p pr pid now
  | complete k ok => exact completeStep_maxes st k ok
  | setMoving b => exact processQueue_maxes _
  | pauseE =>
    show (pauseStep st).maxIdle = st.maxIdle
      ∧ (pauseStep st).maxMoving = st.maxMoving
    unfold pauseStep
    split
    · exact ⟨rfl, rfl⟩
    · exact ⟨rfl, rfl⟩
  | resumeE =>
    show (resumeStep st).maxIdle = st.maxIdle
      ∧ (resumeStep st).maxMoving = st.maxMoving
    unfold resumeStep
    split
    · exact processQueue_maxes _
    · exact ⟨rfl, rfl⟩
  | cancelAllE => exact ⟨rfl, rfl⟩

theorem runThr_maxes : ∀ (evs : List Ev) (st : ThrState),
    (runThr evs st).maxIdle = st.maxIdle
    ∧ (runThr evs st).maxMoving = st.maxMoving
  | [], _ => ⟨rfl, rfl⟩
  | e :: evs, st => by
    have h1 := runThr_maxes evs (stepThr st e)
    have h2 := stepThr_maxes st e
    exact ⟨h1.1.trans h2.1, h1.2.trans h2.2⟩

end WMS

/-- C2 (amended): under any sequence of events, a fetch is started only
while `activeCount < currentLimit()`, so the number of in-flight fetches
never exceeds the larger of the two configured caps,
`max maxConcurrentIdle maxConcurrentMoving` (default 8); the tighter
moving-time limit can be transiently exceeded right after
`setCameraMoving(true)` because in-flight fetches are not aborted. -/
theorem C2_theorem (evs : List WMS.Ev) (idle moving : Nat) :
    (WMS.runThr evs (WMS.initThr idle moving)).activeCount ≤
      ((max idle moving : Nat) : Int) := by
  have hcap := WMS.runThr_cap evs (WMS.initThr idle moving)
    (by unfold WMS.capBound WMS.initThr; positivity)
  have hmx := WMS.runThr_maxes evs (WMS.initThr idle moving)
  unfold WMS.capBound at hcap
  rw [hmx.1, hmx.2] at hcap
  exact hcap

/-- C4: `cancelAll()` on a throttler with 2 in-flight waiters and 3
pending queue waiters rejects exactly those 5 promises with the
cancellation error, fires the abort signal of every in-flight fetch,
clears the queue, the in-flight map and the queued-request map, and
leaves `activeCount = 0`. -/
theorem C4_theorem (st : WMS.ThrState)
    (h2 : (st.inflight.flatMap (fun e => e.2)).length = 2)
    (h3 : (st.queue.flatMap (fun r => r.pid :: r.waiters)).length = 3) :
    (WMS.cancelAllStep st).settled = st.settled ++
        ((st.inflight.flatMap (fun e => e.2)) ++
          (st.queue.flatMap (fun r => r.pid :: r.waiters))).map
          (fun p => (p, WMS.Outcome.cancelled))
    ∧ (WMS.cancelAllStep st).settled.length = st.settled.length + 5
    ∧ (WMS.cancelAllStep st).aborted =
        st.aborted ++ st.inflight.map (fun e => e.1)
    ∧ (WMS.cancelAllStep st).inflight = []
    ∧ (WMS.cancelAllStep st).queue = []
    ∧ (WMS.cancelAllStep st).activeCount = 0 := by
  refine ⟨rfl, ?_, rfl, rfl, rfl, rfl⟩
  show (st.settled ++
      ((st.inflight.flatMap (fun e => e.2)) ++
        (st.queue.flatMap (fun r => r.pid :: r.waiters))).map
        (fun p => (p, WMS.Outcome.cancelled))).length =
    st.settled.length + 5
  rw [List.length_append, List.length_map, List.length_append, h2, h3]

/-- Witness for C4: a concrete trace with 2 in-flight fetches (keys
accepted while idle) and 3 queued requests (made while paused). -/
theorem C4_witness :
    ((WMS.runThr
        [.req "a" none 100 0 0, .req "b" none 100 1 0, .pauseE,
         .req "c" none 100 2 0, .req "d" none 100 3 0,
         .req "e" none 100 4 0]
        (WMS.initThr 2 3)).inflight.flatMap (fun e => e.2)).length = 2
    ∧ ((WMS.runThr
        [.req "a" none 100 0 0, .req "b" none 100 1 0, .pauseE,
         .req "c" none 100 2 0, .req "d" none 100 3 0,
         .req "e" none 100 4 0]
        (WMS.initThr 2 3)).queue.flatMap
          (fun r => r.pid :: r.waiters)).length = 3
    ∧ (WMS.cancelAllStep
        (WMS.runThr
          [.req "a" none 100 0 0, .req "b" none 100 1 0, .pauseE,
           .req "c" none 100 2 0, .req "d" none 100 3 0,
           .req "e" none 100 4 0]
          (WMS.initThr 2 3))).settled.length =
      (WMS.runThr
          [.req "a" none 100 0 0, .req "b" none 100 1 0, .pauseE,
           .req "c" none 100 2 0, .req "d" none 100 3 0,
           .req "e" none 100 4 0]
          (WMS.initThr 2 3)).settled.length + 5
    ∧ (WMS.cancelAllStep
        (WMS.runThr
          [.req "a" none 100 0 0, .req "b" none 100 1 0, .pauseE,
           .req "c" none 100 2 0, .req "d" none 100 3 0,
           .req "e" none 100 4 0]
          (WMS.initThr 2 3))).activeCount = 0 := by
  refine ⟨by decide, by decide, ?_, ?_⟩
  · exact (C4_theorem _ (by decide) (by decide)).2.1
  · exact (C4_theorem _ (by decide) (by decide)).2.2.2.2.2

namespace WMS

theorem requestStep_first (url : String)
    (params : Option (List (String × String))) (prio : Int) (pid : Nat)
    (now : Int) :
    requestStep (initThr 8 3) url params prio pid now =
      ⟨[], [(buildKey url params, [pid])], 1, 8, 3, false, false,
        [buildKey url params], [], []⟩ := by
  simp only [requestStep, initThr, lookupInflight, findQueued,
    List.find?_nil, List.findIdx?_nil, Option.map_none', pushHeap,
    List.nil_append, bubbleUp, bubbleUpGo, processQueue, Bool.false_eq_true,
    if_false, List.length_singleton, processGo, currentLimit, popHeap,
    lookupInflight, Option.isSome_none]
  norm_num

theorem runThr_attach_all (url : String)
    (params : Option (List (String × String))) (prios nows : Nat → Int) :
    ∀ (js : List Nat) (st : ThrState) (acc : List Nat),
      st.inflight = [(buildKey url params, acc)] →
      runThr (js.map (fun j => Ev.req url params (prios j) j (nows j))) st =
        { st with inflight := [(buildKey url params, acc ++ js)] }
  | [], st, acc, h => by
    show st = { st with inflight := [(buildKey url params, acc ++ [])] }
    rw [List.append_nil, ← h]
  | j :: js, st, acc, h => by
    show runThr (js.map (fun j => Ev.req url params (prios j) j (nows j)))
        (requestStep st url params (prios j) j (nows j)) = _
    have hinf : lookupInflight st (buildKey url params) = some acc := by
      simp [lookupInflight, h]
    have hstep : requestStep st url params (prios j) j (nows j) =
        { st with inflight := [(buildKey url params, acc ++ [j])] } := by
      simp only [requestStep, hinf]
      simp [attachInflight, h]
    rw [hstep,
      runThr_attach_all url params prios nows js _ (acc ++ [j]) rfl]
    simp

end WMS

/-- C3: N ≥ 1 concurrent `request()` calls with the same url and params
(the same dedupe key), made before any fetch for that key completes,
start exactly one physical fetch; all N promises are attached to that
single in-flight entry, and when it settles all N resolve (or all
reject) together. -/
theorem C3_theorem (url : String)
    (params : Option (List (String × String))) (prios nows : Nat → Int)
    (N : Nat) (hN : 1 ≤ N) :
    (WMS.runThr
        ((List.range N).map
          (fun j => WMS.Ev.req url params (prios j) j (nows j)))
        (WMS.initThr 8 3)).started = [WMS.buildKey url params]
    ∧ (WMS.runThr
        ((List.range N).map
          (fun j => WMS.Ev.req url params (prios j) j (nows j)))
        (WMS.initThr 8 3)).inflight =
      [(WMS.buildKey url params, List.range N)]
    ∧ (WMS.runThr
        ((List.range N).map
          (fun j => WMS.Ev.req url params (prios j) j (nows j)))
        (WMS.initThr 8 3)).activeCount = 1
    ∧ ∀ ok : Bool,
        (WMS.completeStep
          (WMS.runThr
            ((List.range N).map
              (fun j => WMS.Ev.req url params (prios j) j (nows j)))
            (WMS.initThr 8 3))
          (WMS.buildKey url params) ok).settled =
        (List.range N).map
          (fun j =>
            (j, if ok then WMS.Outcome.success else WMS.Outcome.failure)) := by
  obtain ⟨M, rfl⟩ : ∃ M, N = M + 1 := ⟨N - 1, by omega⟩
  have hrun : WMS.runThr
      ((List.range (M + 1)).map
        (fun j => WMS.Ev.req url params (prios j) j (nows j)))
      (WMS.initThr 8 3) =
      ⟨[], [(WMS.buildKey url params, List.range (M + 1))], 1, 8, 3,
        false, false, [WMS.buildKey url params], [], []⟩ := by
    rw [List.range_succ_eq_map, List.map_cons]
    show WMS.runThr _ (WMS.requestStep (WMS.initThr 8 3) url params
      (prios 0) 0 (nows 0)) = _
    rw [WMS.requestStep_first,
      WMS.runThr_attach_all url params prios nows
        ((List.range M).map Nat.succ)
        ⟨[], [(WMS.buildKey url params, [0])], 1, 8, 3, false, false,
          [WMS.buildKey url params], [], []⟩ [0] rfl]
    rfl
  refine ⟨?_, ?_, ?_, ?_⟩
  · rw [hrun]
  · rw [hrun]
  · rw [hrun]
  · intro ok
    rw [hrun]
    simp [WMS.completeStep, WMS.lookupInflight, WMS.processQueue,
      WMS.processGo]

namespace WMS

theorem insertionSort_eq_of_perm (p1 p2 : List (String × String))
    (hperm : p1.Perm p2) (hnd : (p1.map Prod.fst).Nodup) :
    List.insertionSort keyLE p1 = List.insertionSort keyLE p2 := by
  haveI : IsAntisymm (String × String) (fun a b => a.1 < b.1) :=
    ⟨fun a b h1 h2 => (lt_asymm h1 h2).elim⟩
  have hs1 : (List.insertionSort keyLE p1).Sorted keyLE :=
    List.sorted_insertionSort keyLE p1
  have hs2 : (List.insertionSort keyLE p2).Sorted keyLE :=
    List.sorted_insertionSort keyLE p2
  have hp1 : (List.insertionSort keyLE p1).Perm p1 :=
    List.perm_insertionSort keyLE p1
  have hp2 : (List.insertionSort keyLE p2).Perm p2 :=
    List.perm_insertionSort keyLE p2
  have hperm' : (List.insertionSort keyLE p1).Perm
      (List.insertionSort keyLE p2) :=
    (hp1.trans hperm).trans hp2.symm
  have hnd1 : ((List.insertionSort keyLE p1).map Prod.fst).Nodup :=
    ((hp1.map Prod.fst).nodup_iff).mpr hnd
  have hnd2 : ((List.insertionSort keyLE p2).map Prod.fst).Nodup :=
    (((hp2.map Prod.fst).trans (hperm.symm.map Prod.fst)).nodup_iff).mpr hnd
  have hstrict : ∀ (l : List (String × String)), l.Sorted keyLE →
      (l.map Prod.fst).Nodup → l.Sorted (fun a b => a.1 < b.1) := by
    intro l hle hnd'
    have hne : l.Pairwise (fun a b => a.1 ≠ b.1) :=
      (List.pairwise_map.mp hnd')
    exact (hle.and hne).imp (fun h => lt_of_le_of_ne h.1 h.2)
  exact List.eq_of_perm_of_sorted hperm'
    (hstrict _ hs1 hnd1) (hstrict _ hs2 hnd2)

end WMS

namespace WMS

theorem fetchTries_delays (succ ab : Nat → Bool) (rand : Nat → ℚ) :
    ∀ (fuel a : Nat), ∃ m : Nat,
      (fetchTries fuel succ ab rand a).2 =
        (List.range m).map (fun k =>
          backoffBase * ((a + k + 1 : Nat) : ℚ) *
            (rand (a + k + 1) * (1 / 2) + 3 / 4))
      ∧ m ≤ maxRetries - a
  | 0, a => ⟨0, by simp [fetchTries]⟩
  | fuel + 1, a => by
    show ∃ m, (fetchTries (fuel + 1) succ ab rand a).2 = _ ∧ _
    rw [fetchTries]
    by_cases h1 : succ a = true
    · exact ⟨0, by simp [h1], by omega⟩
    · rw [Bool.not_eq_true] at h1
      rw [h1]
      by_cases h2 : ab a = true
      · exact ⟨0, by simp [h2], by omega⟩
      · rw [Bool.not_eq_true] at h2
        rw [h2]
        by_cases h3 : maxRetries ≤ a
        · exact ⟨0, by simp [h3], by omega⟩
        · obtain ⟨m', hm', hle'⟩ := fetchTries_delays succ ab rand fuel (a + 1)
          refine ⟨m' + 1, ?_, by unfold maxRetries at h3 hle' ⊢; omega⟩
          simp only [if_neg h3, Bool.false_eq_true, if_false]
          rw [hm', List.range_succ_eq_map, List.map_cons, List.map_map]
          refine congrArg₂ _ (by norm_num) ?_
          refine List.map_congr_left (fun k _ => ?_)
          have : a + 1 + k + 1 = a + (k + 1) + 1 := by omega
          simp [Function.comp, this]

end WMS

/-- C8: a transient fetch failure is retried at most twice; before retry
attempt k (k = 1, 2) the wait is `150 · k · jitter` with the jitter
factor `Math.random()·0.5 + 0.75` lying in [0.75, 1.25]; when all three
tries fail without an abort the promise rejects after exactly 2 retries;
an abort rejects immediately without further retries; and a rejection of
the fetch for a dedupe key rejects every waiter attached to that key's
in-flight entry. -/
theorem C8_theorem (succ ab : Nat → Bool) (rand : Nat → ℚ)
    (hr : ∀ n, 0 ≤ rand n ∧ rand n < 1)
    (st : WMS.ThrState) (key : String) (pids : List Nat)
    (hinf : WMS.lookupInflight st key = some pids) :
    (WMS.fetchWMS succ ab rand).2.length ≤ 2
    ∧ (∀ i, ∀ h : i < (WMS.fetchWMS succ ab rand).2.length,
        (WMS.fetchWMS succ ab rand).2.get ⟨i, h⟩ =
          150 * ((i + 1 : Nat) : ℚ) * (rand (i + 1) * (1 / 2) + 3 / 4)
        ∧ 3 / 4 ≤ rand (i + 1) * (1 / 2) + 3 / 4
        ∧ rand (i + 1) * (1 / 2) + 3 / 4 < 5 / 4)
    ∧ ((∀ k, succ k = false) → (∀ k, ab k = false) →
        (WMS.fetchWMS succ ab rand).1 = false
        ∧ (WMS.fetchWMS succ ab rand).2.length = 2)
    ∧ (succ 0 = false → ab 0 = true →
        WMS.fetchWMS succ ab rand = (false, []))
    ∧ (∀ p, p ∈ pids →
        (p, WMS.Outcome.failure) ∈ (WMS.completeStep st key false).settled) := by
  obtain ⟨m, hm, hle⟩ :=
    WMS.fetchTries_delays succ ab rand (WMS.maxRetries + 1) 0
  have hm0 : (WMS.fetchWMS succ ab rand).2 =
      (List.range m).map (fun k =>
        WMS.backoffBase * ((k + 1 : Nat) : ℚ) *
          (rand (k + 1) * (1 / 2) + 3 / 4)) := by
    rw [WMS.fetchWMS, hm]
    exact List.map_congr_left (fun k _ => by norm_num)
  refine ⟨?_, ?_, ?_, ?_, ?_⟩
  · rw [hm0, List.length_map, List.length_range]
    unfold WMS.maxRetries at hle
    omega
  · intro i h
    have hi : i < m := by
      rw [hm0, List.length_map, List.length_range] at h
      exact h
    refine ⟨?_, ?_, ?_⟩
    · have := List.get_of_eq hm0 ⟨i, h⟩
      rw [this]
      simp [WMS.backoffBase, List.getElem_map]
    · have h1 := (hr (i + 1)).1
      linarith
    · have h2 := (hr (i + 1)).2
      linarith
  · intro hs ha
    have : WMS.fetchWMS succ ab rand = (false,
        [WMS.backoffBase * ((1 : Nat) : ℚ) * (rand 1 * (1 / 2) + 3 / 4),
         WMS.backoffBase * ((2 : Nat) : ℚ) * (rand 2 * (1 / 2) + 3 / 4)]) := by
      rw [WMS.fetchWMS]
      show WMS.fetchTries 3 succ ab rand 0 = _
      rw [WMS.fetchTries, hs 0, ha 0]
      rw [WMS.fetchTries, hs 1, ha 1]
      rw [WMS.fetchTries, hs 2, ha 2]
      simp [WMS.maxRetries]
    rw [this]
    exact ⟨rfl, rfl⟩
  · intro hs ha
    rw [WMS.fetchWMS]
    show WMS.fetchTries 3 succ ab rand 0 = _
    rw [WMS.fetchTries, hs, ha]
    simp
  · intro p hp
    have hset : (WMS.completeStep st key false).settled =
        st.settled ++ pids.map (fun q => (q, WMS.Outcome.failure)) := by
      simp only [WMS.completeStep, hinf]
      rw [WMS.processQueue_settled]
      simp
    rw [hset]
    exact List.mem_append_right _ (List.mem_map_of_mem _ hp)

/-- Witness for C8 at a concrete input: every try fails without abort
and every random draw is 0; the fetch rejects after 2 retries, and the
waiter of a concrete in-flight entry is rejected with it. -/
theorem C8_witness :
    (∀ n : Nat, (0 : ℚ) ≤ (fun _ => (0 : ℚ)) n ∧ (fun _ => (0 : ℚ)) n < 1)
    ∧ (WMS.fetchWMS (fun _ => false) (fun _ => false) (fun _ => 0)).1 = false
    ∧ (WMS.fetchWMS (fun _ => false) (fun _ => false)
        (fun _ => 0)).2.length = 2
    ∧ ((0 : Nat), WMS.Outcome.failure) ∈
        (WMS.completeStep
          ⟨[], [("k", [0])], 1, 8, 3, false, false, ["k"], [], []⟩
          "k" false).settled := by
  have h := C8_theorem (fun _ => false) (fun _ => false) (fun _ => 0)
    (fun n => by norm_num)
    ⟨[], [("k", [0])], 1, 8, 3, false, false, ["k"], [], []⟩ "k" [0] rfl
  have h3 := h.2.2.1 (fun _ => rfl) (fun _ => rfl)
  exact ⟨fun n => by norm_num, h3.1, h3.2, h.2.2.2.2 0 (by decide)⟩

/-- C10: the dedupe key is independent of parameter insertion order —
for two params objects holding the same key-value pairs in different
orders, `buildKey` returns identical keys, and two `request()` calls
with those params coalesce onto one physical fetch with both promises
attached to the single in-flight entry. -/
theorem C10_theorem (url : String) (p1 p2 : List (String × String))
    (pr1 pr2 : Int) (t1 t2 : Int) (hperm : p1.Perm p2)
    (hnd : (p1.map Prod.fst).Nodup) :
    WMS.buildKey url (some p1) = WMS.buildKey url (some p2)
    ∧ (WMS.runThr
        [.req url (some p1) pr1 0 t1, .req url (some p2) pr2 1 t2]
        (WMS.initThr 8 3)).started = [WMS.buildKey url (some p1)]
    ∧ (WMS.runThr
        [.req url (some p1) pr1 0 t1, .req url (some p2) pr2 1 t2]
        (WMS.initThr 8 3)).inflight =
      [(WMS.buildKey url (some p1), [0, 1])] := by
  have hkey : WMS.buildKey url (some p1) = WMS.buildKey url (some p2) := by
    show url ++ "?" ++ WMS.paramString (List.insertionSort WMS.keyLE p1) =
      url ++ "?" ++ WMS.paramString (List.insertionSort WMS.keyLE p2)
    rw [WMS.insertionSort_eq_of_perm p1 p2 hperm hnd]
  have hrun : WMS.runThr
      [.req url (some p1) pr1 0 t1, .req url (some p2) pr2 1 t2]
      (WMS.initThr 8 3) =
      ⟨[], [(WMS.buildKey url (some p1), [0, 1])], 1, 8, 3, false, false,
        [WMS.buildKey url (some p1)], [], []⟩ := by
    show WMS.requestStep
      (WMS.requestStep (WMS.initThr 8 3) url (some p1) pr1 0 t1)
      url (some p2) pr2 1 t2 = _
    rw [WMS.requestStep_first]
    have hinf : WMS.lookupInflight
        ⟨[], [(WMS.buildKey url (some p1), [0])], 1, 8, 3, false, false,
          [WMS.buildKey url (some p1)], [], []⟩
        (WMS.buildKey url (some p2)) = some [0] := by
      rw [← hkey]
      simp [WMS.lookupInflight]
    simp only [WMS.requestStep, hinf]
    simp [WMS.attachInflight, ← hkey]
  exact ⟨hkey, by rw [hrun], by rw [hrun]⟩

/-- Witness for C10: two concrete two-entry params objects in opposite
orders. -/
theorem C10_witness :
    ([("a", "1"), ("b", "2")] : List (String × String)).Perm
        [("b", "2"), ("a", "1")]
    ∧ (([("a", "1"), ("b", "2")] : List (String × String)).map
        Prod.fst).Nodup
    ∧ WMS.buildKey "u" (some [("a", "1"), ("b", "2")]) =
        WMS.buildKey "u" (some [("b", "2"), ("a", "1")])
    ∧ (WMS.runThr
        [.req "u" (some [("a", "1"), ("b", "2")]) 100 0 0,
         .req "u" (some [("b", "2"), ("a", "1")]) 50 1 0]
        (WMS.initThr 8 3)).started =
      [WMS.buildKey "u" (some [("a", "1"), ("b", "2")])] := by
  have h := C10_theorem "u" [("a", "1"), ("b", "2")]
    [("b", "2"), ("a", "1")] 100 50 0 0 (by decide) (by decide)
  exact ⟨by decide, by decide, h.1, h.2.1⟩

namespace Sched

theorem mget_cons (p : String × LiveTree) (t : List (String × LiveTree))
    (f : String) :
    mget (p :: t) f = if p.1 = f then some p.2 else mget t f := by
  by_cases hf : p.1 = f
  · rw [mget, List.find?_cons_of_pos _ (by simp [hf]), if_pos hf]
    rfl
  · rw [mget, List.find?_cons_of_neg _ (by simp [hf]), if_neg hf]
    rfl

theorem mget_mset_self : ∀ (l : List (String × LiveTree)) (k : String)
    (v : LiveTree), mget (mset l k v) k = some v
  | [], k, v => by
    rw [show mset [] k v = [(k, v)] from rfl, mget_cons, if_pos rfl]
  | p :: t, k, v => by
    rw [mset]
    by_cases hk : p.1 = k
    · rw [if_pos hk, mget_cons, if_pos rfl]
    · rw [if_neg hk, mget_cons, if_neg hk]
      exact mget_mset_self t k v

theorem mget_mset_other : ∀ (l : List (String × LiveTree)) (k : String)
    (v : LiveTree) (f : String), f ≠ k →
    mget (mset l k v) f = mget l f
  | [], k, v, f, h => by
    rw [show mset [] k v = [(k, v)] from rfl, mget_cons,
      if_neg (fun he => h he.symm)]
  | p :: t, k, v, f, h => by
    rw [mset]
    by_cases hk : p.1 = k
    · rw [if_pos hk, mget_cons, mget_cons,
        if_neg (fun he => h he.symm), if_neg (by rw [hk]; exact fun he => h he.symm)]
    · rw [if_neg hk, mget_cons, mget_cons]
      by_cases hf : p.1 = f
      · rw [if_pos hf, if_pos hf]
      · rw [if_neg hf, if_neg hf]
        exact mget_mset_other t k v f h

theorem mget_mdel_other : ∀ (l : List (String × LiveTree)) (k f : String),
    f ≠ k → mget (mdel l k) f = mget l f
  | [], _, _, _ => rfl
  | p :: t, k, f, h => by
    rw [mdel, List.eraseP_cons]
    by_cases hk : p.1 = k
    · rw [show (p.1 == k) = true by simp [hk], cond_true]
      rw [mget_cons, if_neg (by rw [hk]; exact fun he => h he.symm)]
    · rw [show (p.1 == k) = false by simp [hk], cond_false]
      rw [mget_cons, mget_cons]
      by_cases hf : p.1 = f
      · rw [if_pos hf, if_pos hf]
      · rw [if_neg hf, if_neg hf]
        exact mget_mdel_other t k f h

theorem completeLoad_fields (st : SchedState) (item : QItem) (m : Nat) :
    (completeLoad st item m).lodVersion = st.lodVersion
    ∧ (completeLoad st item m).visible = st.visible
    ∧ (completeLoad st item m).moving = st.moving
    ∧ (completeLoad st item m).queue = st.queue := by
  unfold completeLoad
  split
  · exact ⟨rfl, rfl, rfl, rfl⟩
  · cases hget : mget st.live item.meta.fid with
    | none => exact ⟨rfl, rfl, rfl, rfl⟩
    | some e =>
      by_cases hmatch : e.lod = item.lod ∧ e.url = item.url
      · simp [if_pos hmatch]
      · simp [if_neg hmatch]

theorem mget_completeLoad_other (st : SchedState) (item : QItem) (m : Nat)
    (f : String) (h : f ≠ item.meta.fid) :
    mget (completeLoad st item m).live f = mget st.live f := by
  unfold completeLoad
  split
  · rfl
  · cases hget : mget st.live item.meta.fid with
    | none => exact mget_mset_other st.live item.meta.fid _ f h
    | some e =>
      by_cases hmatch : e.lod = item.lod ∧ e.url = item.url
      · simp only [if_pos hmatch]
      · simp only [if_neg hmatch]
        exact mget_mset_other st.live item.meta.fid _ f h

theorem completeLoad_matches (st : SchedState) (item : QItem) (m : Nat)
    (hv : st.visible = true) (hver : item.version = st.lodVersion) :
    ∃ e, mget (completeLoad st item m).live item.meta.fid = some e
      ∧ e.url = item.url ∧ e.lod = item.lod := by
  unfold completeLoad
  rw [if_neg (by simp [hv, hver])]
  cases hget : mget st.live item.meta.fid with
  | none =>
    exact ⟨⟨m, item.url, item.lod⟩, mget_mset_self _ _ _, rfl, rfl⟩
  | some e =>
    by_cases hmatch : e.lod = item.lod ∧ e.url = item.url
    · simp only [if_pos hmatch]
      exact ⟨e, hget, hmatch.2, hmatch.1⟩
    · simp only [if_neg hmatch]
      exact ⟨⟨m, item.url, item.lod⟩, mget_mset_self _ _ _, rfl, rfl⟩

theorem filterMap_sublist_map {α β : Type} (g' : α → Option β) (g : α → β)
    (hyp : ∀ a, g' a = none ∨ g' a = some (g a)) :
    ∀ l : List α, (l.filterMap g').Sublist (l.map g)
  | [] => List.Sublist.slnil
  | a :: l => by
    rw [List.filterMap_cons, List.map_cons]
    rcases hyp a with h | h
    · rw [h]
      exact (filterMap_sublist_map g' g hyp l).cons _
    · rw [h]
      exact (filterMap_sublist_map g' g hyp l).cons₂ _

theorem applyGo_fields : ∀ (items : List QItem) (b : Nat) (s : SchedState),
    (applyGo items b s).visible = s.visible
    ∧ (applyGo items b s).lodVersion = s.lodVersion
    ∧ (applyGo items b s).moving = s.moving
  | [], _, _ => ⟨rfl, rfl, rfl⟩
  | it :: rest, b, s => by
    have h1 := applyGo_fields rest (b + 1) (completeLoad s it b)
    have h2 := completeLoad_fields s it b
    exact ⟨h1.1.trans h2.2.1, h1.2.1.trans h2.1, h1.2.2.trans h2.2.2.1⟩

theorem applyGo_mget_other : ∀ (items : List QItem) (b : Nat)
    (s : SchedState) (f : String), (∀ it ∈ items, it.meta.fid ≠ f) →
    mget (applyGo items b s).live f = mget s.live f
  | [], _, _, _, _ => rfl
  | it :: rest, b, s, f, h => by
    rw [applyGo,
      applyGo_mget_other rest (b + 1) _ f
        (fun it' hit' => h it' (List.mem_cons_of_mem _ hit')),
      mget_completeLoad_other s it b f
        (fun he => h it (List.mem_cons_self _ _) he.symm)]

theorem applyGo_matches : ∀ (items : List QItem) (b : Nat)
    (s : SchedState), s.visible = true →
    (∀ it ∈ items, it.version = s.lodVersion) →
    (items.map (fun it => it.meta.fid)).Nodup →
    ∀ it ∈ items, ∃ e,
      mget (applyGo items b s).live it.meta.fid = some e
      ∧ e.url = it.url ∧ e.lod = it.lod
  | [], _, _, _, _, _ => by intro it hit; exact absurd hit (List.not_mem_nil _)
  | it0 :: rest, b, s, hv, hver, hnd => by
    intro it hit
    rcases List.mem_cons.mp hit with rfl | hit'
    · obtain ⟨e, he, hu, hl⟩ := completeLoad_matches s it b hv
        (hver it (List.mem_cons_self _ _))
      refine ⟨e, ?_, hu, hl⟩
      rw [applyGo, applyGo_mget_other rest (b + 1) _ it.meta.fid ?_]
      · exact he
      · intro it' hit' heq
        have : it.meta.fid ∈ rest.map (fun x => x.meta.fid) :=
          heq ▸ List.mem_map_of_mem _ hit'
        exact (List.nodup_cons.mp hnd).1 this
    · have hfields := completeLoad_fields s it0 b
      rw [applyGo]
      exact applyGo_matches rest (b + 1) (completeLoad s it0 b)
        (hfields.2.1.trans hv)
        (fun it' hit'' =>
          (hver it' (List.mem_cons_of_mem _ hit'')).trans hfields.1.symm)
        (List.nodup_cons.mp hnd).2 it hit'

theorem enqueueItem_none_iff (live : List (String × LiveTree))
    (version : Nat) (h : TreeM × ℚ) :
    enqueueItem live version h = none ↔
      ∃ e, mget live h.1.fid = some e
        ∧ e.url = (resolveLOD h.1 h.2).1
        ∧ e.lod = (resolveLOD h.1 h.2).2 := by
  unfold enqueueItem
  cases hget : mget live h.1.fid with
  | none =>
    simp only
    constructor
    · intro hx
      exact Option.noConfusion hx
    · rintro ⟨e, he, _⟩
      exact Option.noConfusion he
  | some e =>
    simp only
    by_cases hmatch : e.url = (resolveLOD h.1 h.2).1
        ∧ e.lod = (resolveLOD h.1 h.2).2
    · rw [if_pos hmatch]
      exact ⟨fun _ => ⟨e, rfl, hmatch⟩, fun _ => rfl⟩
    · rw [if_neg hmatch]
      constructor
      · intro hx
        exact Option.noConfusion hx
      · rintro ⟨e', he', hu', hl'⟩
        exact absurd ((Option.some.inj he') ▸ ⟨hu', hl'⟩) hmatch

theorem enqueueItem_some (live : List (String × LiveTree)) (version : Nat)
    (h : TreeM × ℚ) (it : QItem)
    (hs : enqueueItem live version h = some it) :
    it = ⟨h.1, (resolveLOD h.1 h.2).1, (resolveLOD h.1 h.2).2, version⟩ := by
  unfold enqueueItem at hs
  cases hget : mget live h.1.fid with
  | none =>
    rw [hget] at hs
    exact (Option.some.inj hs).symm
  | some e =>
    rw [hget] at hs
    simp only at hs
    by_cases hmatch : e.url = (resolveLOD h.1 h.2).1
        ∧ e.lod = (resolveLOD h.1 h.2).2
    · rw [if_pos hmatch] at hs
      exact Option.noConfusion hs
    · rw [if_neg hmatch] at hs
      exact (Option.some.inj hs).symm

theorem removeFold_fields (keep : List String) :
    ∀ (entries : List (String × LiveTree)) (s : SchedState),
    ((entries.foldl
      (fun s p =>
        if keep.contains p.1 then s
        else
          { s with
            primitives := s.primitives.erase ⟨p.1, p.2.modelId⟩,
            live := mdel s.live p.1 }) s).visible = s.visible
    ∧ (entries.foldl
      (fun s p =>
        if keep.contains p.1 then s
        else
          { s with
            primitives := s.primitives.erase ⟨p.1, p.2.modelId⟩,
            live := mdel s.live p.1 }) s).lodVersion = s.lodVersion
    ∧ (entries.foldl
      (fun s p =>
        if keep.contains p.1 then s
        else
          { s with
            primitives := s.primitives.erase ⟨p.1, p.2.modelId⟩,
            live := mdel s.live p.1 }) s).moving = s.moving)
  | [], _ => ⟨rfl, rfl, rfl⟩
  | p :: t, s => by
    rw [List.foldl_cons]
    by_cases hc : keep.contains p.1
    · rw [if_pos hc]
      exact removeFold_fields keep t s
    · rw [if_neg hc]
      exact removeFold_fields keep t _

theorem removeFold_mget_keep (keep : List String) :
    ∀ (entries : List (String × LiveTree)) (s : SchedState) (f : String),
    f ∈ keep →
    mget ((entries.foldl
      (fun s p =>
        if keep.contains p.1 then s
        else
          { s with
            primitives := s.primitives.erase ⟨p.1, p.2.modelId⟩,
            live := mdel s.live p.1 }) s).live) f = mget s.live f
  | [], _, _, _ => rfl
  | p :: t, s, f, hf => by
    rw [List.foldl_cons]
    by_cases hc : keep.contains p.1
    · rw [if_pos hc]
      exact removeFold_mget_keep keep t s f hf
    · rw [if_neg hc]
      rw [removeFold_mget_keep keep t _ f hf]
      refine mget_mdel_other s.live p.1 f (fun he => ?_)
      exact hc (List.elem_iff.mpr (he ▸ hf))

theorem atMostOne_of_inv (st : SchedState) (h : InvC1 st) : atMostOne st := by
  intro f
  have hnd : (st.primitives.filter (fun p => p.fid == f)).Nodup :=
    h.2.filter _
  have hall : ∀ x ∈ st.primitives.filter (fun p => p.fid == f),
      ∀ y ∈ st.primitives.filter (fun p => p.fid == f), x = y := by
    intro x hx y hy
    have hx' := List.of_mem_filter hx
    have hy' := List.of_mem_filter hy
    have hxm := List.mem_of_mem_filter hx
    have hym := List.mem_of_mem_filter hy
    obtain ⟨ex, hex, hmx⟩ := h.1 x hxm
    obtain ⟨ey, hey, hmy⟩ := h.1 y hym
    have hfx : x.fid = f := by simpa using hx'
    have hfy : y.fid = f := by simpa using hy'
    rw [hfx] at hex
    rw [hfy] at hey
    have : ex = ey := by
      have := hex.symm.trans hey
      exact Option.some.inj this
    cases x with
    | mk xf xm =>
      cases y with
      | mk yf ym =>
        simp only at hfx hfy hmx hmy
        subst hfx hfy hmx hmy
        rw [this]
  rcases hfil : st.primitives.filter (fun p => p.fid == f) with _ | ⟨a, t⟩
  · rw [hfil]
    simp
  · rcases hfil2 : t with _ | ⟨b, t2⟩
    · rw [hfil, hfil2]
      simp
    · exfalso
      rw [hfil2] at hfil
      have ha : a ∈ st.primitives.filter (fun p => p.fid == f) := by
        rw [hfil]; exact List.mem_cons_self _ _
      have hb : b ∈ st.primitives.filter (fun p => p.fid == f) := by
        rw [hfil]; exact List.mem_cons_of_mem _ (List.mem_cons_self _ _)
      have hab : a = b := hall a ha b hb
      rw [hfil] at hnd
      exact (List.nodup_cons.mp hnd).1 (hab ▸ List.mem_cons_self _ _)

end Sched

/-- C1 (amended): a completed queue item is applied to the scene (its
fresh model installed and the live map updated for its fid) if and only
if the scheduler is visible, the item's version equals the current
`lodVersion` at completion time, and the live entry for the fid does
not already carry the item's URL and tier; a stale-version item is
discarded leaving the state unchanged; and completion preserves the
scene-coherence invariant, so at most one scene model ever exists per
fid. -/
theorem C1_theorem (st : Sched.SchedState) (item : Sched.QItem) (m : Nat)
    (hfresh1 : ∀ p ∈ st.primitives, p.modelId ≠ m)
    (hfresh2 : ∀ e, Sched.mget st.live item.meta.fid = some e →
      e.modelId ≠ m)
    (hinv : Sched.InvC1 st) :
    ((Sched.mget (Sched.completeLoad st item m).live item.meta.fid =
          some ⟨m, item.url, item.lod⟩
        ∧ Sched.SceneModel.mk item.meta.fid m ∈
            (Sched.completeLoad st item m).primitives)
      ↔ (st.visible = true ∧ item.version = st.lodVersion
          ∧ ¬ ∃ e, Sched.mget st.live item.meta.fid = some e
              ∧ e.lod = item.lod ∧ e.url = item.url))
    ∧ (item.version ≠ st.lodVersion → Sched.completeLoad st item m = st)
    ∧ Sched.InvC1 (Sched.completeLoad st item m)
    ∧ Sched.atMostOne (Sched.completeLoad st item m) := by
  by_cases hcond : st.visible = false ∨ item.version ≠ st.lodVersion
  · have heq : Sched.completeLoad st item m = st := by
      unfold Sched.completeLoad
      rw [if_pos hcond]
    refine ⟨?_, fun _ => heq, by rw [heq]; exact hinv,
      by rw [heq]; exact Sched.atMostOne_of_inv st hinv⟩
    rw [heq]
    constructor
    · rintro ⟨h1, _⟩
      exact absurd rfl (hfresh2 _ h1)
    · rintro ⟨hv, hver, _⟩
      rcases hcond with hc | hc
      · rw [hv] at hc
        exact Bool.noConfusion hc
      · exact absurd hver hc
  · push_neg at hcond
    obtain ⟨hv', hver⟩ := hcond
    have hv : st.visible = true := by
      cases hb : st.visible
      · exact absurd hb hv'
      · rfl
    have hstale : item.version ≠ st.lodVersion →
        Sched.completeLoad st item m = st := fun hne => absurd hver hne
    cases hget : Sched.mget st.live item.meta.fid with
    | none =>
      have heq : Sched.completeLoad st item m =
          { st with
            primitives := st.primitives ++ [⟨item.meta.fid, m⟩],
            live := Sched.mset st.live item.meta.fid
              ⟨m, item.url, item.lod⟩ } := by
        unfold Sched.completeLoad
        rw [if_neg (by simp [hv, hver]), hget]
      have hinv' : Sched.InvC1 (Sched.completeLoad st item m) := by
        rw [heq]
        constructor
        · intro p hp
          rcases List.mem_append.mp hp with hp | hp
          · obtain ⟨e, he, hme⟩ := hinv.1 p hp
            by_cases hf : p.fid = item.meta.fid
            · rw [hf] at he
              rw [hget] at he
              exact Option.noConfusion he
            · exact ⟨e, by
                rw [Sched.mget_mset_other st.live item.meta.fid _ p.fid hf]
                exact he, hme⟩
          · rw [List.mem_singleton.mp hp]
            exact ⟨⟨m, item.url, item.lod⟩, Sched.mget_mset_self _ _ _, rfl⟩
        · refine List.nodup_append.mpr ⟨hinv.2, List.nodup_singleton _, ?_⟩
          intro a ha hb
          rw [List.mem_singleton.mp hb] at ha
          exact hfresh1 _ ha rfl
      refine ⟨?_, hstale, hinv', Sched.atMostOne_of_inv _ hinv'⟩
      rw [heq]
      constructor
      · intro _
        refine ⟨hv, hver, ?_⟩
        rintro ⟨e, he, _⟩
        exact Option.noConfusion he
      · intro _
        exact ⟨Sched.mget_mset_self _ _ _,
          List.mem_append_right _ (List.mem_singleton_self _)⟩
    | some e =>
      by_cases hmatch : e.lod = item.lod ∧ e.url = item.url
      · have heq : Sched.completeLoad st item m =
            { st with
              primitives :=
                st.primitives.erase ⟨item.meta.fid, e.modelId⟩ } := by
          unfold Sched.completeLoad
          rw [if_neg (by simp [hv, hver]), hget]
          simp only [if_pos hmatch]
        have hinv' : Sched.InvC1 (Sched.completeLoad st item m) := by
          rw [heq]
          exact ⟨fun p hp => hinv.1 p (List.mem_of_mem_erase hp),
            hinv.2.erase _⟩
        refine ⟨?_, hstale, hinv', Sched.atMostOne_of_inv _ hinv'⟩
        rw [heq]
        constructor
        · rintro ⟨h1, _⟩
          exact absurd rfl (hfresh2 _ h1)
        · rintro ⟨_, _, hno⟩
          exact absurd ⟨e, rfl, hmatch.1, hmatch.2⟩ hno
      · have heq : Sched.completeLoad st item m =
            { st with
              primitives :=
                (st.primitives.erase ⟨item.meta.fid, e.modelId⟩) ++
                  [⟨item.meta.fid, m⟩],
              live := Sched.mset st.live item.meta.fid
                ⟨m, item.url, item.lod⟩ } := by
          unfold Sched.completeLoad
          rw [if_neg (by simp [hv, hver]), hget]
          simp only [if_neg hmatch]
        have hinv' : Sched.InvC1 (Sched.completeLoad st item m) := by
          rw [heq]
          constructor
          · intro p hp
            rcases List.mem_append.mp hp with hp' | hp'
            · have hpm := List.mem_of_mem_erase hp'
              obtain ⟨e'', he'', hme''⟩ := hinv.1 p hpm
              by_cases hf : p.fid = item.meta.fid
              · exfalso
                rw [hf, hget] at he''
                have he2 : e'' = e := (Option.some.inj he'').symm
                have hpe : p = Sched.SceneModel.mk item.meta.fid e.modelId := by
                  cases p with
                  | mk pf pm =>
                    simp only at hf hme''
                    rw [hf, hme'', he2]
                rw [hpe] at hp'
                exact ((hinv.2.mem_erase_iff).mp hp').1 rfl
              · exact ⟨e'', by
                  rw [Sched.mget_mset_other st.live item.meta.fid _ p.fid hf]
                  exact he'', hme''⟩
            · rw [List.mem_singleton.mp hp']
              exact ⟨⟨m, item.url, item.lod⟩, Sched.mget_mset_self _ _ _, rfl⟩
          · refine List.nodup_append.mpr
              ⟨hinv.2.erase _, List.nodup_singleton _, ?_⟩
            intro a ha hb
            rw [List.mem_singleton.mp hb] at ha
            exact hfresh1 _ (List.mem_of_mem_erase ha) rfl
        refine ⟨?_, hstale, hinv', Sched.atMostOne_of_inv _ hinv'⟩
        rw [heq]
        constructor
        · intro _
          refine ⟨hv, hver, ?_⟩
          rintro ⟨e', he', hl', hu'⟩
          have h' : e = e' := Option.some.inj he'
          rw [← h'] at hl' hu'
          exact hmatch ⟨hl', hu'⟩
        · intro _
          exact ⟨Sched.mget_mset_self _ _ _,
            List.mem_append_right _ (List.mem_singleton_self _)⟩

/-- Witness for C1 at a concrete input: an empty visible scheduler
completes a matching-version item and applies it. -/
theorem C1_witness :
    (∀ p ∈ (Sched.SchedState.mk [] [] [] 0 true false).primitives,
      p.modelId ≠ 1)
    ∧ (∀ e, Sched.mget (Sched.SchedState.mk [] [] [] 0 true false).live
        "a" = some e → e.modelId ≠ 1)
    ∧ Sched.InvC1 (Sched.SchedState.mk [] [] [] 0 true false)
    ∧ (Sched.mget
        (Sched.completeLoad (Sched.SchedState.mk [] [] [] 0 true false)
          ⟨⟨"a", 0, 0, 0, 1, 0, none, none, some "l"⟩, some "l",
            Sched.LOD.low, 0⟩ 1).live "a" =
        some ⟨1, some "l", Sched.LOD.low⟩
      ↔ ((Sched.SchedState.mk [] [] [] 0 true false).visible = true
          ∧ (0 : Nat) = 0
          ∧ ¬ ∃ e, Sched.mget
              (Sched.SchedState.mk [] [] [] 0 true false).live "a" =
                some e
              ∧ e.lod = Sched.LOD.low ∧ e.url = some "l")) := by
  have h := C1_theorem (Sched.SchedState.mk [] [] [] 0 true false)
    ⟨⟨"a", 0, 0, 0, 1, 0, none, none, some "l"⟩, some "l",
      Sched.LOD.low, 0⟩ 1
    (by intro p hp; simp at hp)
    (by intro e he; simp [Sched.mget] at he)
    ⟨by intro p hp; simp at hp, List.nodup_nil⟩
  refine ⟨by intro p hp; simp at hp,
    by intro e he; simp [Sched.mget] at he,
    ⟨by intro p hp; simp at hp, List.nodup_nil⟩, ?_⟩
  constructor
  · intro h1
    exact (h.1.mp ⟨h1, by decide⟩).imp id (fun hx => hx.imp id id)
  · intro h2
    exact (h.1.mpr h2).1

/-- C7 (amended): the diff step run a second time against the same
candidate hits produces an empty queue, provided the items the first
run enqueued have all completed and been applied to the live map in
between (`applyAll`); without that drain the second run re-enqueues the
same items, because the diff is taken against the live map, which only
reflects completed loads. -/
theorem C7_theorem (st : Sched.SchedState) (hits : List (Sched.TreeM × ℚ))
    (base : Nat) (hv : st.visible = true) (hmov : st.moving = false)
    (hnd : (hits.map (fun h => h.1.fid)).Nodup) :
    (Sched.diffStep (Sched.applyAll (Sched.diffStep st hits) base)
      hits).queue = [] := by
  have hdiff : ∀ s : Sched.SchedState, s.visible = true → s.moving = false →
      Sched.diffStep s hits =
        Sched.enqueueMissing
          (Sched.removeOutOfRange s (hits.map (fun h => h.1.fid))) hits := by
    intro s hsv hsm
    unfold Sched.diffStep
    rw [if_neg (by simp [hsv]), if_neg (by simp [hsm])]
  have hd1 := hdiff st hv hmov
  have hq1 : (Sched.enqueueMissing
      (Sched.removeOutOfRange st (hits.map (fun h => h.1.fid))) hits).queue =
      hits.filterMap (Sched.enqueueItem
        (Sched.removeOutOfRange st (hits.map (fun h => h.1.fid))).live
        ((Sched.removeOutOfRange st
          (hits.map (fun h => h.1.fid))).lodVersion + 1)) := rfl
  have hap : Sched.applyAll (Sched.diffStep st hits) base =
      Sched.applyGo (Sched.diffStep st hits).queue base
        { Sched.diffStep st hits with queue := [] } := rfl
  have hr := Sched.removeFold_fields (hits.map (fun h => h.1.fid)) st.live st
  have hAv : (Sched.diffStep st hits).visible = true := by
    rw [hd1]
    exact hr.1.trans hv
  have hAm : (Sched.diffStep st hits).moving = false := by
    rw [hd1]
    exact hr.2.2.trans hmov
  have hqver : ∀ it ∈ (Sched.diffStep st hits).queue,
      it.version = (Sched.diffStep st hits).lodVersion := by
    rw [hd1, hq1]
    intro it hit
    obtain ⟨a, ha, hfa⟩ := List.mem_filterMap.mp hit
    rw [Sched.enqueueItem_some _ _ a it hfa]
    rfl
  have hqnd : ((Sched.diffStep st hits).queue.map
      (fun it => it.meta.fid)).Nodup := by
    rw [hd1, hq1]
    refine List.Nodup.sublist ?_ hnd
    rw [List.map_filterMap]
    refine Sched.filterMap_sublist_map _ _ (fun a => ?_) hits
    cases he : Sched.enqueueItem
        (Sched.removeOutOfRange st (hits.map (fun h => h.1.fid))).live
        ((Sched.removeOutOfRange st
          (hits.map (fun h => h.1.fid))).lodVersion + 1) a with
    | none => exact Or.inl rfl
    | some it =>
      right
      rw [Sched.enqueueItem_some _ _ a it he]
      rfl
  have hmatchB : ∀ h ∈ hits, ∃ e,
      Sched.mget (Sched.applyAll (Sched.diffStep st hits) base).live
        h.1.fid = some e
      ∧ e.url = (Sched.resolveLOD h.1 h.2).1
      ∧ e.lod = (Sched.resolveLOD h.1 h.2).2 := by
    intro h hh
    by_cases hskip : Sched.enqueueItem
        (Sched.removeOutOfRange st (hits.map (fun h => h.1.fid))).live
        ((Sched.removeOutOfRange st
          (hits.map (fun h => h.1.fid))).lodVersion + 1) h = none
    · obtain ⟨e, he, hu, hl⟩ :=
        (Sched.enqueueItem_none_iff _ _ h).mp hskip
      refine ⟨e, ?_, hu, hl⟩
      rw [hap, Sched.applyGo_mget_other _ base _ h.1.fid ?_]
      · rw [hd1]
        exact he
      · intro it hit heq
        rw [hd1, hq1] at hit
        obtain ⟨a, ha, hfa⟩ := List.mem_filterMap.mp hit
        have hita := Sched.enqueueItem_some _ _ a it hfa
        have hfid : a.1.fid = h.1.fid := by
          rw [hita] at heq
          exact heq
        have haeq : a = h := List.inj_on_of_nodup_map hnd ha hh hfid
        rw [haeq] at hfa
        rw [hskip] at hfa
        exact Option.noConfusion hfa
    · obtain ⟨it, hit⟩ := Option.ne_none_iff_exists'.mp hskip
      have hitEq := Sched.enqueueItem_some _ _ h it hit
      have hmemq : it ∈ (Sched.diffStep st hits).queue := by
        rw [hd1, hq1]
        exact List.mem_filterMap.mpr ⟨h, hh, hit⟩
      obtain ⟨e, he, hu, hl⟩ :=
        Sched.applyGo_matches (Sched.diffStep st hits).queue base
          { Sched.diffStep st hits with queue := [] } hAv hqver hqnd it hmemq
      rw [hitEq] at he hu hl
      rw [hap]
      exact ⟨e, he, hu, hl⟩
  have hBv : (Sched.applyAll (Sched.diffStep st hits) base).visible =
      true := by
    rw [hap]
    exact (Sched.applyGo_fields (Sched.diffStep st hits).queue base
      { Sched.diffStep st hits with queue := [] }).1.trans hAv
  have hBm : (Sched.applyAll (Sched.diffStep st hits) base).moving =
      false := by
    rw [hap]
    exact (Sched.applyGo_fields (Sched.diffStep st hits).queue base
      { Sched.diffStep st hits with queue := [] }).2.2.trans hAm
  have hd2 := hdiff (Sched.applyAll (Sched.diffStep st hits) base) hBv hBm
  have hq2 : (Sched.enqueueMissing
      (Sched.removeOutOfRange
        (Sched.applyAll (Sched.diffStep st hits) base)
        (hits.map (fun h => h.1.fid))) hits).queue =
      hits.filterMap (Sched.enqueueItem
        (Sched.removeOutOfRange
          (Sched.applyAll (Sched.diffStep st hits) base)
          (hits.map (fun h => h.1.fid))).live
        ((Sched.removeOutOfRange
          (Sched.applyAll (Sched.diffStep st hits) base)
          (hits.map (fun h => h.1.fid))).lodVersion + 1)) := rfl
  rw [hd2, hq2]
  refine List.filterMap_eq_nil_iff.mpr (fun h hh => ?_)
  refine (Sched.enqueueItem_none_iff _ _ h).mpr ?_
  obtain ⟨e, he, hu, hl⟩ := hmatchB h hh
  refine ⟨e, ?_, hu, hl⟩
  have hf : h.1.fid ∈ hits.map (fun x => x.1.fid) :=
    List.mem_map_of_mem _ hh
  exact (Sched.removeFold_mget_keep (hits.map (fun x => x.1.fid))
    (Sched.applyAll (Sched.diffStep st hits) base).live
    (Sched.applyAll (Sched.diffStep st hits) base) h.1.fid hf).trans he

/-- Witness for C7 at a concrete input: one hit at 500 m from an empty
visible scheduler; after the first diff's queue is applied, the second
diff enqueues nothing. -/
theorem C7_witness :
    (Sched.SchedState.mk [] [] [] 0 true false).visible = true
    ∧ (Sched.SchedState.mk [] [] [] 0 true false).moving = false
    ∧ (([((⟨"a", 0, 0, 0, 1, 0, none, none, some "l"⟩ : Sched.TreeM),
          (500 : ℚ))].map (fun h => h.1.fid)).Nodup)
    ∧ (Sched.diffStep
        (Sched.applyAll
          (Sched.diffStep (Sched.SchedState.mk [] [] [] 0 true false)
            [(⟨"a", 0, 0, 0, 1, 0, none, none, some "l"⟩, 500)])
          7)
        [(⟨"a", 0, 0, 0, 1, 0, none, none, some "l"⟩, 500)]).queue = [] := by
  refine ⟨rfl, rfl, by decide, ?_⟩
  exact C7_theorem (Sched.SchedState.mk [] [] [] 0 true false)
    [(⟨"a", 0, 0, 0, 1, 0, none, none, some "l"⟩, 500)] 7 rfl rfl
    (by decide)

/-- Witness for C3 at N = 2 concrete requests. -/
theorem C3_witness :
    1 ≤ 2
    ∧ ((WMS.runThr
        ((List.range 2).map
          (fun j => WMS.Ev.req "u" none ((fun _ => 100) j) j
            ((fun _ => 0) j)))
        (WMS.initThr 8 3)).started = [WMS.buildKey "u" none]
      ∧ (WMS.runThr
          ((List.range 2).map
            (fun j => WMS.Ev.req "u" none ((fun _ => 100) j) j
              ((fun _ => 0) j)))
          (WMS.initThr 8 3)).inflight =
        [(WMS.buildKey "u" none, List.range 2)]
      ∧ (WMS.runThr
          ((List.range 2).map
            (fun j => WMS.Ev.req "u" none ((fun _ => 100) j) j
              ((fun _ => 0) j)))
          (WMS.initThr 8 3)).activeCount = 1
      ∧ ∀ ok : Bool,
          (WMS.completeStep
            (WMS.runThr
              ((List.range 2).map
                (fun j => WMS.Ev.req "u" none ((fun _ => 100) j) j
                  ((fun _ => 0) j)))
              (WMS.initThr 8 3))
            (WMS.buildKey "u" none) ok).settled =
          (List.range 2).map
            (fun j =>
              (j, if ok then WMS.Outcome.success
                else WMS.Outcome.failure))) :=
  ⟨by decide, C3_theorem "u" none (fun _ => 100) (fun _ => 0) 2 (by decide)⟩


namespace WMS

theorem cmp_le_iff (a b : WMSReq) :
    cmp a b ≤ 0 ↔
      (a.priority < b.priority
        ∨ (a.priority = b.priority ∧ b.createdAt ≤ a.createdAt)) := by
  unfold cmp
  split_ifs with h <;> omega

theorem cmp_refl_le (a : WMSReq) : cmp a a ≤ 0 := by
  unfold cmp
  simp

theorem cmp_le_trans {a b c : WMSReq} (h1 : cmp a b ≤ 0)
    (h2 : cmp b c ≤ 0) : cmp a c ≤ 0 := by
  rw [cmp_le_iff] at h1 h2 ⊢
  omega

theorem cmp_nonneg_iff (a b : WMSReq) : 0 ≤ cmp a b ↔ cmp b a ≤ 0 := by
  unfold cmp
  split_ifs with h1 h2 h2 <;> omega

theorem cmp_decrease {x a b : WMSReq} (h1 : x.priority ≤ a.priority)
    (h2 : x.createdAt = a.createdAt) (h : cmp a b ≤ 0) : cmp x b ≤ 0 := by
  rw [cmp_le_iff] at h ⊢
  omega

theorem cmp_congr {a a' : WMSReq} (hp : a.priority = a'.priority)
    (hc : a.createdAt = a'.createdAt) (b : WMSReq) :
    cmp a b = cmp a' b ∧ cmp b a = cmp b a' := by
  unfold cmp
  rw [hp, hc]
  exact ⟨rfl, rfl⟩

theorem nth_set_self (q : List WMSReq) (i : Nat) (x : WMSReq)
    (h : i < q.length) : nth (q.set i x) i = x := by
  unfold nth
  rw [List.getD_eq_getElem?_getD, List.getElem?_set_self h]
  rfl

theorem nth_set_ne (q : List WMSReq) (i j : Nat) (x : WMSReq)
    (h : i ≠ j) : nth (q.set i x) j = nth q j := by
  unfold nth
  rw [List.getD_eq_getElem?_getD, List.getElem?_set_ne h,
    List.getD_eq_getElem?_getD]

theorem nth_swapL (q : List WMSReq) (i j k : Nat) (hi : i < q.length)
    (hj : j < q.length) :
    nth (swapL q i j) k =
      if k = j then nth q i else if k = i then nth q j else nth q k := by
  unfold swapL
  by_cases hkj : k = j
  · rw [if_pos hkj, hkj, nth_set_self _ _ _ (by simpa using hj)]
  · rw [if_neg hkj, nth_set_ne _ _ _ _ (fun he => hkj he.symm)]
    by_cases hki : k = i
    · rw [if_pos hki, hki, nth_set_self _ _ _ hi]
    · rw [if_neg hki, nth_set_ne _ _ _ _ (fun he => hki he.symm)]

theorem nth_mem (q : List WMSReq) (k : Nat) (h : k < q.length) :
    nth q k ∈ q := by
  unfold nth
  rw [List.getD_eq_getElem?_getD, List.getElem?_eq_getElem h]
  exact List.getElem_mem h

theorem mem_iff_nth (q : List WMSReq) (a : WMSReq) :
    a ∈ q ↔ ∃ k, k < q.length ∧ nth q k = a := by
  constructor
  · intro h
    obtain ⟨k, hk, he⟩ := List.mem_iff_getElem.mp h
    refine ⟨k, hk, ?_⟩
    unfold nth
    rw [List.getD_eq_getElem?_getD, List.getElem?_eq_getElem hk]
    exact he
  · rintro ⟨k, hk, rfl⟩
    exact nth_mem q k hk

theorem mem_swapL (q : List WMSReq) (i j : Nat) (a : WMSReq)
    (hi : i < q.length) (hj : j < q.length) :
    a ∈ swapL q i j ↔ a ∈ q := by
  have hlen : (swapL q i j).length = q.length := length_swapL q i j
  constructor
  · intro h
    obtain ⟨k, hk, he⟩ := (mem_iff_nth _ _).mp h
    rw [hlen] at hk
    rw [nth_swapL q i j k hi hj] at he
    split_ifs at he with h1 h2
    · exact he ▸ nth_mem q i hi
    · exact he ▸ nth_mem q j hj
    · exact he ▸ nth_mem q k hk
  · intro h
    obtain ⟨k, hk, he⟩ := (mem_iff_nth _ _).mp h
    refine (mem_iff_nth _ _).mpr ?_
    by_cases hki : k = i
    · refine ⟨j, by omega, ?_⟩
      rw [nth_swapL q i j j hi hj]
      rw [if_pos rfl, ← hki, he]
    · by_cases hkj : k = j
      · refine ⟨i, by omega, ?_⟩
        rw [nth_swapL q i j i hi hj]
        by_cases hij : i = j
        · rw [if_pos hij, hij, ← hkj, he]
        · rw [if_neg hij, if_pos rfl, ← hkj, he]
      · refine ⟨k, by omega, ?_⟩
        rw [nth_swapL q i j k hi hj, if_neg hkj, if_neg hki, he]

theorem length_bubbleUpGo : ∀ (fuel : Nat) (q : List WMSReq) (i : Nat),
    (bubbleUpGo fuel q i).length = q.length
  | 0, _, _ => rfl
  | _ + 1, _, 0 => rfl
  | fuel + 1, q, i + 1 => by
    rw [bubbleUpGo_succ]
    split
    · rfl
    · rw [length_bubbleUpGo fuel _ (i / 2), length_swapL]

theorem mem_bubbleUpGo : ∀ (fuel : Nat) (q : List WMSReq) (i : Nat)
    (a : WMSReq), i < q.length → (a ∈ bubbleUpGo fuel q i ↔ a ∈ q)
  | 0, _, _, _, _ => Iff.rfl
  | _ + 1, _, 0, _, _ => Iff.rfl
  | fuel + 1, q, i + 1, a, h => by
    rw [bubbleUpGo_succ]
    split
    · exact Iff.rfl
    · rw [mem_bubbleUpGo fuel _ (i / 2) a
        (by rw [length_swapL]; omega)]
      exact mem_swapL q (i + 1) (i / 2) a h (by omega)

theorem length_bubbleDownGo : ∀ (fuel : Nat) (q : List WMSReq) (i : Nat),
    (bubbleDownGo fuel q i).length = q.length
  | 0, _, _ => rfl
  | fuel + 1, q, i => by
    rw [bubbleDownGo_succ]
    split
    · rfl
    · rw [length_bubbleDownGo fuel _ _, length_swapL]

theorem mem_bubbleDownGo : ∀ (fuel : Nat) (q : List WMSReq) (i : Nat)
    (a : WMSReq), (a ∈ bubbleDownGo fuel q i ↔ a ∈ q)
  | 0, _, _, _ => Iff.rfl
  | fuel + 1, q, i, a => by
    rw [bubbleDownGo_succ]
    split
    · exact Iff.rfl
    · rename_i hne
      rcases smallestIdx_spec q i with h | h
      · exact absurd h hne
      · rw [mem_bubbleDownGo fuel _ _ a]
        exact mem_swapL q i (smallestIdx q i) a (by omega) h.2

end WMS

namespace WMS

theorem heapExceptUp_set (q : List WMSReq) (i : Nat) (x : WMSReq)
    (hi : i < q.length) (hord : heapOrdered q)
    (hpr : x.priority ≤ (nth q i).priority)
    (hca : x.createdAt = (nth q i).createdAt) :
    heapExceptUp (q.set i x) i := by
  have hlen : (q.set i x).length = q.length := q.length_set i x
  constructor
  · intro c hc0 hclen hci
    rw [hlen] at hclen
    rw [nth_set_ne _ _ _ _ (fun he => hci he.symm)]
    by_cases hpc : (c - 1) / 2 = i
    · rw [hpc, nth_set_self _ _ _ hi]
      refine cmp_decrease hpr hca ?_
      have := hord c hc0 hclen
      rw [hpc] at this
      exact this
    · rw [nth_set_ne _ _ _ _ (fun he => hpc he.symm)]
      exact hord c hc0 hclen
  · intro hi0 c hclen hpc
    rw [hlen] at hclen
    have hc_big : 2 * i + 1 ≤ c := by omega
    have hpi_lt : (i - 1) / 2 < i := by omega
    rw [nth_set_ne _ _ _ _ (fun he => by omega),
      nth_set_ne _ _ _ _ (fun he => by omega)]
    refine cmp_le_trans (hord i hi0 hi) ?_
    have := hord c (by omega) hclen
    rw [hpc] at this
    exact this

theorem bubbleUp_restore : ∀ (j : Nat) (q : List WMSReq),
    j < q.length → heapExceptUp q j → heapOrdered (bubbleUp q j)
  | 0, q, _, hexc => by
    show heapOrdered (bubbleUpGo 1 q 0)
    intro c hc0 hclen
    exact hexc.1 c hc0 hclen (by omega)
  | i + 1, q, hj, hexc => by
    rw [bubbleUp_succ]
    by_cases hc : 0 ≤ cmp (nth q (i + 1)) (nth q (i / 2))
    · rw [if_pos hc]
      intro c hc0 hclen
      by_cases hci : c = i + 1
      · subst hci
        rw [show (i + 1 - 1) / 2 = i / 2 by omega]
        exact (cmp_nonneg_iff _ _).mp hc
      · exact hexc.1 c hc0 hclen hci
    · rw [if_neg hc]
      have hplt : i / 2 < i + 1 := by omega
      have hplen : i / 2 < q.length := by omega
      refine bubbleUp_restore (i / 2) (swapL q (i + 1) (i / 2))
        (by rw [length_swapL]; omega) ?_
      have hn : ∀ k, nth (swapL q (i + 1) (i / 2)) k =
          if k = i / 2 then nth q (i + 1)
          else if k = i + 1 then nth q (i / 2) else nth q k :=
        fun k => nth_swapL q (i + 1) (i / 2) k hj hplen
      have hq1 : nth (swapL q (i + 1) (i / 2)) (i / 2) = nth q (i + 1) := by
        rw [hn (i / 2), if_pos rfl]
      have hq2 : nth (swapL q (i + 1) (i / 2)) (i + 1) = nth q (i / 2) := by
        rw [hn (i + 1), if_neg (by omega), if_pos rfl]
      have hq3 : ∀ k, k ≠ i / 2 → k ≠ i + 1 →
          nth (swapL q (i + 1) (i / 2)) k = nth q k := by
        intro k h1 h2
        rw [hn k, if_neg h1, if_neg h2]
      have hlen2 : (swapL q (i + 1) (i / 2)).length = q.length :=
        length_swapL _ _ _
      have hlt : cmp (nth q (i + 1)) (nth q (i / 2)) < 0 := by omega
      constructor
      · intro c hc0 hclen hcp
        rw [hlen2] at hclen
        by_cases hc1 : c = i + 1
        · subst hc1
          rw [show (i + 1 - 1) / 2 = i / 2 by omega, hq1, hq2]
          exact le_of_lt hlt
        · rw [hq3 c hcp hc1]
          by_cases hpc : (c - 1) / 2 = i / 2
          · rw [hpc, hq1]
            refine cmp_le_trans (le_of_lt hlt) ?_
            have := hexc.1 c hc0 hclen hc1
            rw [hpc] at this
            exact this
          · by_cases hpc2 : (c - 1) / 2 = i + 1
            · rw [hpc2, hq2]
              have := hexc.2 (by omega) c hclen hpc2
              rw [show (i + 1 - 1) / 2 = i / 2 by omega] at this
              exact this
            · rw [hq3 ((c - 1) / 2) hpc hpc2]
              exact hexc.1 c hc0 hclen hc1
      · intro hp0 c hclen hpc
        rw [hlen2] at hclen
        have hcc : c = 2 * (i / 2) + 1 ∨ c = 2 * (i / 2) + 2 := by omega
        have hcp : c ≠ i / 2 := by omega
        rw [hq3 ((i / 2 - 1) / 2) (by omega) (by omega)]
        have hedge_p : cmp (nth q ((i / 2 - 1) / 2)) (nth q (i / 2)) ≤ 0 :=
          hexc.1 (i / 2) hp0 hplen (by omega)
        by_cases hc1 : c = i + 1
        · subst hc1
          rw [hq2]
          exact hedge_p
        · rw [hq3 c hcp hc1]
          refine cmp_le_trans hedge_p ?_
          have := hexc.1 c (by omega) hclen hc1
          rw [hpc] at this
          exact this

theorem bubbleDown_of_heap (q : List WMSReq) (i : Nat)
    (h : heapOrdered q) : bubbleDown q i = q := by
  rw [bubbleDown_eq]
  rw [if_pos ?_]
  unfold smallestIdx
  simp only
  have h1 : ¬(2 * i + 1 < q.length
      ∧ cmp (nth q (2 * i + 1)) (nth q i) < 0) := by
    rintro ⟨hl, hcmp⟩
    have := h (2 * i + 1) (by omega) hl
    rw [show (2 * i + 1 - 1) / 2 = i by omega] at this
    rw [← cmp_nonneg_iff] at this
    omega
  rw [if_neg h1]
  have h2 : ¬(2 * i + 2 < q.length
      ∧ cmp (nth q (2 * i + 2)) (nth q i) < 0) := by
    rintro ⟨hl, hcmp⟩
    have := h (2 * i + 2) (by omega) hl
    rw [show (2 * i + 2 - 1) / 2 = i by omega] at this
    rw [← cmp_nonneg_iff] at this
    omega
  rw [if_neg h2]

theorem heap_root_min (q : List WMSReq) (h : heapOrdered q) :
    ∀ i, i < q.length → cmp (nth q 0) (nth q i) ≤ 0 := by
  intro i
  induction i using Nat.strong_induction_on with
  | _ i ih =>
    intro hlen
    by_cases h0 : i = 0
    · subst h0
      exact cmp_refl_le _
    · exact cmp_le_trans
        (ih ((i - 1) / 2) (by omega) (by omega))
        (h i (by omega) hlen)

theorem popHeap_recency (q : List WMSReq) (r : WMSReq)
    (rest : List WMSReq) (hord : heapOrdered q)
    (hpop : popHeap q = some (r, rest)) :
    ∀ o ∈ q, o.priority = r.priority → o.createdAt ≤ r.createdAt := by
  cases q with
  | nil => exact Option.noConfusion hpop
  | cons a t =>
    have hr : a = r := congrArg Prod.fst (Option.some.inj hpop)
    intro o ho hp
    obtain ⟨k, hk, hko⟩ := (mem_iff_nth _ _).mp ho
    have hroot := heap_root_min (a :: t) hord k hk
    have hnth0 : nth (a :: t) 0 = a := rfl
    rw [hnth0, hko, hr] at hroot
    rw [cmp_le_iff] at hroot
    omega

end WMS

namespace WMS

theorem heapOrdered_set_cmpEq (q : List WMSReq) (i : Nat) (x : WMSReq)
    (hi : i < q.length) (hp : x.priority = (nth q i).priority)
    (hc : x.createdAt = (nth q i).createdAt) (h : heapOrdered q) :
    heapOrdered (q.set i x) := by
  intro c hc0 hclen
  rw [q.length_set] at hclen
  by_cases hci : c = i
  · subst hci
    rw [nth_set_self _ _ _ hclen,
      nth_set_ne _ _ _ _ (fun he => by omega)]
    rw [(cmp_congr hp hc (nth q ((c - 1) / 2))).2]
    exact h c hc0 hclen
  · rw [nth_set_ne _ _ _ _ (fun he => hci he.symm)]
    by_cases hpc : (c - 1) / 2 = i
    · rw [hpc, nth_set_self _ _ _ hi,
        (cmp_congr hp hc (nth q c)).1, ← hpc]
      exact h c hc0 hclen
    · rw [nth_set_ne _ _ _ _ (fun he => hpc he.symm)]
      exact h c hc0 hclen

theorem reheapify_restore (q : List WMSReq) (i : Nat) (x : WMSReq)
    (hi : i < q.length) (hord : heapOrdered q)
    (hpr : x.priority ≤ (nth q i).priority)
    (hca : x.createdAt = (nth q i).createdAt) :
    heapOrdered (reheapify (q.set i x) i) := by
  have h1 : heapOrdered (bubbleUp (q.set i x) i) :=
    bubbleUp_restore i (q.set i x) (by rw [q.length_set]; exact hi)
      (heapExceptUp_set q i x hi hord hpr hca)
  show heapOrdered (bubbleDown (bubbleUp (q.set i x) i) i)
  rw [bubbleDown_of_heap _ _ h1]
  exact h1

end WMS

/-- C9: re-requesting an already-queued dedupe key stores the minimum of
the old and new priority on the queued entry (it can only become more
urgent) and attaches the caller as a waiter; the heap is restored by the
re-heapify at that entry's index, so the binary-heap invariant is
preserved; and among queued requests of equal priority the most recently
created one is popped first. -/
theorem C9_theorem (st : WMS.ThrState) (url : String)
    (params : Option (List (String × String))) (prio : Int) (pid : Nat)
    (now : Int) (i : Nat)
    (hinf : WMS.lookupInflight st (WMS.buildKey url params) = none)
    (hfind : WMS.findQueued st (WMS.buildKey url params) = some i)
    (hord : WMS.heapOrdered st.queue) :
    (∃ r ∈ (WMS.requestStep st url params prio pid now).queue,
      r.key = (WMS.nth st.queue i).key
      ∧ r.priority = min (WMS.nth st.queue i).priority prio
      ∧ r.waiters = (WMS.nth st.queue i).waiters ++ [pid])
    ∧ min (WMS.nth st.queue i).priority prio ≤
        (WMS.nth st.queue i).priority
    ∧ (WMS.requestStep st url params prio pid now).queue.length =
        st.queue.length
    ∧ WMS.heapOrdered (WMS.requestStep st url params prio pid now).queue
    ∧ (∀ (q : List WMS.WMSReq) (r : WMS.WMSReq) (rest : List WMS.WMSReq),
        WMS.heapOrdered q → WMS.popHeap q = some (r, rest) →
        ∀ o ∈ q, o.priority = r.priority → o.createdAt ≤ r.createdAt) := by
  have hi : i < st.queue.length :=
    (List.findIdx?_eq_some_iff_findIdx_eq.mp hfind).1
  have hqstep : (WMS.requestStep st url params prio pid now).queue =
      (if min (WMS.nth st.queue i).priority prio =
          (WMS.nth st.queue i).priority then
        st.queue.set i
          { WMS.nth st.queue i with
            priority := min (WMS.nth st.queue i).priority prio,
            waiters := (WMS.nth st.queue i).waiters ++ [pid] }
      else
        WMS.reheapify
          (st.queue.set i
            { WMS.nth st.queue i with
              priority := min (WMS.nth st.queue i).priority prio,
              waiters := (WMS.nth st.queue i).waiters ++ [pid] }) i) := by
    simp only [WMS.requestStep, hinf, hfind]
  have hq1len : i < (st.queue.set i
      { WMS.nth st.queue i with
        priority := min (WMS.nth st.queue i).priority prio,
        waiters := (WMS.nth st.queue i).waiters ++ [pid] }).length := by
    rw [List.length_set]
    exact hi
  have hmem1 : ({ WMS.nth st.queue i with
      priority := min (WMS.nth st.queue i).priority prio,
      waiters := (WMS.nth st.queue i).waiters ++ [pid] } : WMS.WMSReq) ∈
      st.queue.set i
        { WMS.nth st.queue i with
          priority := min (WMS.nth st.queue i).priority prio,
          waiters := (WMS.nth st.queue i).waiters ++ [pid] } := by
    have h := WMS.nth_mem (st.queue.set i
      { WMS.nth st.queue i with
        priority := min (WMS.nth st.queue i).priority prio,
        waiters := (WMS.nth st.queue i).waiters ++ [pid] }) i hq1len
    rw [WMS.nth_set_self _ _ _ hi] at h
    exact h
  refine ⟨?_, min_le_left _ _, ?_, ?_, WMS.popHeap_recency⟩
  · rw [hqstep]
    split_ifs with hbump
    · exact ⟨{ WMS.nth st.queue i with
          priority := min (WMS.nth st.queue i).priority prio,
          waiters := (WMS.nth st.queue i).waiters ++ [pid] },
        hmem1, rfl, rfl, rfl⟩
    · refine ⟨{ WMS.nth st.queue i with
          priority := min (WMS.nth st.queue i).priority prio,
          waiters := (WMS.nth st.queue i).waiters ++ [pid] },
        ?_, rfl, rfl, rfl⟩
      show _ ∈ WMS.bubbleDownGo (WMS.bubbleUp _ i).length
        (WMS.bubbleUp _ i) i
      rw [WMS.mem_bubbleDownGo]
      show _ ∈ WMS.bubbleUpGo (i + 1) _ i
      rw [WMS.mem_bubbleUpGo (i + 1) _ i _ hq1len]
      exact hmem1
  · rw [hqstep]
    split_ifs with hbump
    · exact List.length_set st.queue i _
    · show (WMS.bubbleDownGo (WMS.bubbleUp _ i).length
        (WMS.bubbleUp _ i) i).length = _
      rw [WMS.length_bubbleDownGo]
      show (WMS.bubbleUpGo (i + 1) _ i).length = _
      rw [WMS.length_bubbleUpGo, List.length_set]
  · rw [hqstep]
    split_ifs with hbump
    · exact WMS.heapOrdered_set_cmpEq st.queue i _ hi hbump rfl hord
    · exact WMS.reheapify_restore st.queue i _ hi hord
        (min_le_left _ _) rfl

/-- Witness for C9 on a concrete two-element heap: re-request the queued
key "b" with a more urgent priority. -/
theorem C9_witness :
    WMS.lookupInflight
        (WMS.ThrState.mk
          [⟨"a", none, 0, 10, "a", [], "a", 5⟩,
           ⟨"b", none, 1, 20, "b", [], "b", 6⟩]
          [] 0 8 3 true false [] [] [])
        (WMS.buildKey "b" none) = none
    ∧ WMS.findQueued
        (WMS.ThrState.mk
          [⟨"a", none, 0, 10, "a", [], "a", 5⟩,
           ⟨"b", none, 1, 20, "b", [], "b", 6⟩]
          [] 0 8 3 true false [] [] [])
        (WMS.buildKey "b" none) = some 1
    ∧ WMS.heapOrdered
        [⟨"a", none, 0, 10, "a", [], "a", 5⟩,
         ⟨"b", none, 1, 20, "b", [], "b", 6⟩]
    ∧ (∃ r ∈ (WMS.requestStep
          (WMS.ThrState.mk
            [⟨"a", none, 0, 10, "a", [], "a", 5⟩,
             ⟨"b", none, 1, 20, "b", [], "b", 6⟩]
            [] 0 8 3 true false [] [] [])
          "b" none 7 9 99).queue,
        r.key = (WMS.nth
            [⟨"a", none, 0, 10, "a", [], "a", 5⟩,
             ⟨"b", none, 1, 20, "b", [], "b", 6⟩] 1).key
        ∧ r.priority = min (WMS.nth
            [⟨"a", none, 0, 10, "a", [], "a", 5⟩,
             ⟨"b", none, 1, 20, "b", [], "b", 6⟩] 1).priority 7
        ∧ r.waiters = (WMS.nth
            [⟨"a", none, 0, 10, "a", [], "a", 5⟩,
             ⟨"b", none, 1, 20, "b", [], "b", 6⟩] 1).waiters ++ [9])
    ∧ WMS.heapOrdered (WMS.requestStep
        (WMS.ThrState.mk
          [⟨"a", none, 0, 10, "a", [], "a", 5⟩,
           ⟨"b", none, 1, 20, "b", [], "b", 6⟩]
          [] 0 8 3 true false [] [] [])
        "b" none 7 9 99).queue := by
  have hord : WMS.heapOrdered
      [⟨"a", none, 0, 10, "a", [], "a", 5⟩,
       ⟨"b", none, 1, 20, "b", [], "b", 6⟩] := by
    intro i h1 h2
    have h2' : i < 2 := by simpa using h2
    have hi1 : i = 1 := by omega
    subst hi1
    decide
  have h := C9_theorem
    (WMS.ThrState.mk
      [⟨"a", none, 0, 10, "a", [], "a", 5⟩,
       ⟨"b", none, 1, 20, "b", [], "b", 6⟩]
      [] 0 8 3 true false [] [] [])
    "b" none 7 9 99 1 (by decide) (by decide) hord
  exact ⟨by decide, by decide, hord, h.1, h.2.2.2.1⟩
